import Mathlib

/-!
Verification of the routing engine of the Kampala multi-modal transport
system repository.  The Python source (graph.py, shortest_path.py,
heuristics.py, parallel.py) is shallowly embedded below: node identifiers
are natural numbers (the repository uses dense integer ids), travel-time
weights and coordinates are rationals (exact idealisation of Python
numbers), Python dicts become functions into `Option`, `float('inf')` is
the `none` case of an `Option` cost, and the unbounded `while` loops are
modelled with an explicit fuel parameter (`none` result = the loop did not
finish within the given fuel).
-/

namespace Kampala

/-- Node identifier, an integer id as in the repository. -/
abbrev Node := Nat

/-- Python `int()` applied to an exact rational: truncation toward zero
(floor for nonnegative values, ceiling for negative ones). -/
def pyInt (q : Rat) : Int := if 0 ≤ q then ⌊q⌋ else ⌈q⌉

/-- State of `SimpleGraph` from graph.py: `adjacency` and `positions` are
dicts (functions into `Option`), `grid` is the 10x10 spatial bucket index,
modelled as a function from the (integer) cell coordinates to the bucket
contents; cells outside the allocated 10x10 range are never written. -/
structure PyGraph where
  adjacency : Node → Option (List (Node × Rat))
  positions : Node → Option (Rat × Rat)
  grid : Int → Int → List Node

/-- The `SimpleGraph.__init__` state: empty dicts, empty buckets. -/
def graphInit : PyGraph :=
  { adjacency := fun _ => none
    positions := fun _ => none
    grid := fun _ _ => [] }

/-- Grid cell x-coordinate of a latitude: `int((lat - 0.3) * 20)`. -/
def gridX (lat : Rat) : Int := pyInt ((lat - 3/10) * 20)

/-- Grid cell y-coordinate of a longitude: `int((lon - 32.5) * 20)`. -/
def gridY (lon : Rat) : Int := pyInt ((lon - 325/10) * 20)

/-- `SimpleGraph.add_node(node_id, lat, lon)`: resets the adjacency entry to
an empty list, stores the position, and appends the id to the spatial bucket
whenever the transformed cell coordinates fall inside the 10x10 range. -/
def addNode (g : PyGraph) (node_id : Node) (lat lon : Rat) : PyGraph :=
  let grid_x : Int := gridX lat
  let grid_y : Int := gridY lon
  { adjacency := Function.update g.adjacency node_id (some [])
    positions := Function.update g.positions node_id (some (lat, lon))
    grid :=
      if 0 ≤ grid_x ∧ grid_x < 10 ∧ 0 ≤ grid_y ∧ grid_y < 10 then
        fun x y =>
          if x = grid_x ∧ y = grid_y then g.grid x y ++ [node_id] else g.grid x y
      else g.grid }

/-- `SimpleGraph.add_edge(from_node, to_node, travel_time)`: creates missing
adjacency entries, then appends `(to_node, travel_time)` to the list of
`from_node` and `(from_node, travel_time)` to the list of `to_node`. -/
def addEdge (g : PyGraph) (from_node to_node : Node) (travel_time : Rat) : PyGraph :=
  let adj0 := g.adjacency
  let adj1 := if (adj0 from_node).isSome then adj0 else
    Function.update adj0 from_node (some [])
  let adj2 := if (adj1 to_node).isSome then adj1 else
    Function.update adj1 to_node (some [])
  let adj3 := Function.update adj2 from_node
    (some ((adj2 from_node).getD [] ++ [(to_node, travel_time)]))
  let adj4 := Function.update adj3 to_node
    (some ((adj3 to_node).getD [] ++ [(from_node, travel_time)]))
  { g with adjacency := adj4 }

/-- `SimpleGraph.get_neighbors(node_id)`: the adjacency list, or `[]` for an
unknown id (`dict.get(node_id, [])`). -/
def getNeighbors (g : PyGraph) (node_id : Node) : List (Node × Rat) :=
  (g.adjacency node_id).getD []

/-- A single graph-construction operation. -/
inductive GraphOp where
  | node (id : Node) (lat lon : Rat)
  | edge (a b : Node) (w : Rat)

/-- Apply one construction operation. -/
def applyOp (g : PyGraph) : GraphOp → PyGraph
  | .node id lat lon => addNode g id lat lon
  | .edge a b w => addEdge g a b w

/-- Apply a sequence of construction operations to the empty graph state. -/
def applyOps (ops : List GraphOp) : PyGraph :=
  ops.foldl applyOp graphInit

/-- The node ids an operation mentions. -/
def opMentions : GraphOp → List Node
  | .node id _ _ => [id]
  | .edge a b _ => [a, b]

/-- Symmetry of the adjacency structure: any neighbor entry has a mirrored
entry of equal weight. -/
def SymmetricAdj (g : PyGraph) : Prop :=
  ∀ a b w, (b, w) ∈ getNeighbors g a → (a, w) ∈ getNeighbors g b

/-! ShortestPath (shortest_path.py).  The priority queue `heapq` is a list
of tuples popped in lexicographic order; since distinct entries never
compare equal (tuple equality would force full equality), `heappop` is
exactly "remove the lexicographically least element". -/

/-- Working state of `ShortestPath.dijkstra`: the heap, the `distances`
dict and the `previous` dict. -/
structure DState where
  pq : List (Rat × Node)
  dist : Node → Option Rat
  prev : Node → Option Node

/-- Least element of the heap under lexicographic tuple order, as popped by
`heapq.heappop`. -/
def pqMinD : List (Rat × Node) → Option (Rat × Node)
  | [] => none
  | x :: xs =>
    match pqMinD xs with
    | none => some x
    | some m => if x.1 < m.1 ∨ (x.1 = m.1 ∧ x.2 ≤ m.2) then some x else some m

/-- The lazy-deletion guard `current_dist > distances.get(current, inf)`. -/
def staleKey (d : Option Rat) (cd : Rat) : Bool :=
  match d with
  | none => false
  | some dv => decide (dv < cd)

/-- The relaxation guard `new_dist < distances.get(neighbor, inf)`. -/
def improves (nd : Rat) : Option Rat → Bool
  | none => true
  | some d => decide (nd < d)

/-- The `for neighbor, travel_time in ...` relaxation loop of `dijkstra`. -/
def relaxD (cd : Rat) (c : Node) : List (Node × Rat) → DState → DState
  | [], s => s
  | (n, w) :: rest, s =>
    let nd := cd + w
    let s' :=
      if improves nd (s.dist n) then
        { pq := s.pq ++ [(nd, n)]
          dist := Function.update s.dist n (some nd)
          prev := Function.update s.prev n (some c) }
      else s
    relaxD cd c rest s'

/-- The `while pq:` loop of `dijkstra`, one fuel unit per iteration.
A `some` result is the state at the `break` (when `dst` is popped) or when
the heap empties; `none` means the fuel ran out first. -/
def runD (g : PyGraph) (dst : Node) : Nat → DState → Option DState
  | 0, _ => none
  | fuel+1, s =>
    match pqMinD s.pq with
    | none => some s
    | some (cd, c) =>
      let rest := s.pq.erase (cd, c)
      if c = dst then some { s with pq := rest }
      else if staleKey (s.dist c) cd then runD g dst fuel { s with pq := rest }
      else runD g dst fuel (relaxD cd c (getNeighbors g c) { s with pq := rest })

/-- The backward `while current in previous:` reconstruction walk shared by
both algorithms, with fuel (`none` = the walk did not finish). -/
def walkPrev (prev : Node → Option Node) : Nat → Node → List Node → Option (List Node)
  | 0, cur, acc =>
    match prev cur with
    | none => some acc
    | some _ => none
  | fuel+1, cur, acc =>
    match prev cur with
    | none => some acc
    | some p => walkPrev prev fuel p (acc ++ [cur])

/-- `ShortestPath.dijkstra(start, end)`: run the loop, walk the predecessor
chain backward from `dst`, append `src`, reverse, and pair with
`distances.get(end, inf)` (`none` = `+infinity`). -/
def dijkstra (g : PyGraph) (src dst : Node) (fuel : Nat) : Option (List Node × Option Rat) :=
  let init : DState :=
    { pq := [(0, src)]
      dist := Function.update (fun _ => none) src (some 0)
      prev := fun _ => none }
  match runD g dst fuel init with
  | none => none
  | some st =>
    match walkPrev st.prev fuel dst [] with
    | none => none
    | some p => some ((p ++ [src]).reverse, st.dist dst)

/-- Working state of `ShortestPath.a_star`: heap of `(f, g, node)` triples,
`g_score`, `f_score` and `previous` dicts. -/
structure AState where
  pq : List (Rat × Rat × Node)
  gsc : Node → Option Rat
  fsc : Node → Option Rat
  prev : Node → Option Node

/-- Least `(f, g, node)` triple under lexicographic order. -/
def pqMinA : List (Rat × Rat × Node) → Option (Rat × Rat × Node)
  | [] => none
  | x :: xs =>
    match pqMinA xs with
    | none => some x
    | some m =>
      if x.1 < m.1 ∨ (x.1 = m.1 ∧ (x.2.1 < m.2.1 ∨ (x.2.1 = m.2.1 ∧ x.2.2 ≤ m.2.2)))
      then some x else some m

/-- The relaxation loop of `a_star`; the heuristic is the hard-coded zero of
the source (`f_score[neighbor] = tentative_g`). -/
def relaxA (cg : Rat) (c : Node) : List (Node × Rat) → AState → AState
  | [], s => s
  | (n, w) :: rest, s =>
    let tg := cg + w
    let s' :=
      if improves tg (s.gsc n) then
        { pq := s.pq ++ [(tg, tg, n)]
          gsc := Function.update s.gsc n (some tg)
          fsc := Function.update s.fsc n (some tg)
          prev := Function.update s.prev n (some c) }
      else s
    relaxA cg c rest s'

/-- The `while pq:` loop of `a_star`; the guard compares the popped
`current_g` against `g_score.get(current, inf)`. -/
def runA (g : PyGraph) (dst : Node) : Nat → AState → Option AState
  | 0, _ => none
  | fuel+1, s =>
    match pqMinA s.pq with
    | none => some s
    | some (cf, cg, c) =>
      let rest := s.pq.erase (cf, cg, c)
      if c = dst then some { s with pq := rest }
      else if staleKey (s.gsc c) cg then runA g dst fuel { s with pq := rest }
      else runA g dst fuel (relaxA cg c (getNeighbors g c) { s with pq := rest })

/-- `ShortestPath.a_star(start, end)` with the zero heuristic of the source:
initial heap entry `(f_score[start], 0, start) = (0, 0, start)`, cost
`g_score.get(end, inf)`. -/
def aStar (g : PyGraph) (src dst : Node) (fuel : Nat) : Option (List Node × Option Rat) :=
  let init : AState :=
    { pq := [(0, 0, src)]
      gsc := Function.update (fun _ => none) src (some 0)
      fsc := Function.update (fun _ => none) src (some 0)
      prev := fun _ => none }
  match runA g dst fuel init with
  | none => none
  | some st =>
    match walkPrev st.prev fuel dst [] with
    | none => none
    | some p => some ((p ++ [src]).reverse, st.gsc dst)

/-! MultiStopRouter (heuristics.py) and ParallelProcessor (parallel.py). -/

/-- Python `time < min_time` where either side may be `float('inf')`
(`none`). -/
def ltInf (t m : Option Rat) : Bool :=
  match t, m with
  | none, _ => false
  | some _, none => true
  | some tv, some mv => decide (tv < mv)

/-- The `for stop in unvisited:` scan of `greedy_tsp`, tracking
`(nearest, min_time)`; propagates `none` when an inner `a_star` call runs
out of fuel. -/
def scanStops (g : PyGraph) (aFuel : Nat) (current : Node) :
    List Node → Option Node × Option Rat → Option (Option Node × Option Rat)
  | [], acc => some acc
  | stop :: rest, (nearest, minT) =>
    match aStar g current stop aFuel with
    | none => none
    | some (_, time) =>
      if ltInf time minT then scanStops g aFuel current rest (some stop, time)
      else scanStops g aFuel current rest (nearest, minT)

/-- The `while unvisited:` loop of `greedy_tsp`.  `if nearest:` is Python
truthiness: the branch is taken only when `nearest` is a non-`None`,
non-zero node id. -/
def greedyLoop (g : PyGraph) (aFuel : Nat) :
    Nat → List Node → Node → List Node → Rat → Option (List Node × Rat)
  | fuel, unvisited, current, route, total =>
    if unvisited.isEmpty then some (route, total)
    else
      match fuel with
      | 0 => none
      | f+1 =>
        match scanStops g aFuel current unvisited (none, none) with
        | none => none
        | some (nearest, minT) =>
          match nearest with
          | some nrst =>
            if nrst ≠ 0 then
              greedyLoop g aFuel f (unvisited.erase nrst) nrst (route ++ [nrst])
                (total + minT.getD 0)
            else greedyLoop g aFuel f unvisited current route total
          | none => greedyLoop g aFuel f unvisited current route total

/-- `MultiStopRouter.greedy_tsp(stops)`: fewer than two stops returns
`(stops, 0)`; otherwise the first stop seeds the route and the remaining
stops form the unvisited set (`set(stops[1:])`, modelled as the deduplicated
tail). -/
def greedyTsp (g : PyGraph) (aFuel lFuel : Nat) (stops : List Node) :
    Option (List Node × Rat) :=
  if stops.length < 2 then some (stops, 0)
  else
    match stops with
    | [] => some ([], 0)
    | s0 :: rest => greedyLoop g aFuel lFuel rest.dedup s0 [s0] 0

/-- The body submitted to the worker pool: one `a_star` call per request. -/
def processRequest (g : PyGraph) (aFuel : Nat) (req : Node × Node) :
    Option (List Node × Option Rat) :=
  aStar g req.1 req.2 aFuel

/-- Value computed by the future of submission index `j`. -/
def futureValue (g : PyGraph) (aFuel : Nat) (requests : List (Node × Node)) (j : Nat) :
    Option (List Node × Option Rat) :=
  match requests.get? j with
  | none => none
  | some req => processRequest g aFuel req

/-- Worker completion log: the futures finish in the order given by the
schedule `sched`, each recording its submission index and value. -/
def completionLog (g : PyGraph) (aFuel : Nat) (requests : List (Node × Node))
    (sched : List Nat) : List (Nat × Option (List Node × Option Rat)) :=
  sched.map (fun j => (j, futureValue g aFuel requests j))

/-- `ParallelProcessor.simple_parallel(graph, requests)`: gather
`f.result()` for the futures in submission order, regardless of the
completion schedule. -/
def simpleParallel (g : PyGraph) (aFuel : Nat) (requests : List (Node × Node))
    (sched : List Nat) : List (Option (List Node × Option Rat)) :=
  (List.range requests.length).map (fun i =>
    match (completionLog g aFuel requests sched).find? (fun p => p.1 == i) with
    | none => none
    | some p => p.2)

/-! Specification-side predicates. -/

/-- All edge weights recorded in the adjacency structure are nonnegative. -/
def WeightsNonneg (g : PyGraph) : Prop :=
  ∀ a p, p ∈ getNeighbors g a → 0 ≤ p.2

/-- All edge weights recorded in the adjacency structure are positive, as
the specification's data model requires of travel times. -/
def WeightsPos (g : PyGraph) : Prop :=
  ∀ a p, p ∈ getNeighbors g a → 0 < p.2

/-- Reachability along recorded adjacency entries. -/
inductive Reach (g : PyGraph) (src : Node) : Node → Prop
  | refl : Reach g src src
  | step {c n : Node} {w : Rat} :
      Reach g src c → (n, w) ∈ getNeighbors g c → Reach g src n

/-- A finite node list containing `src` and closed under adjacency; exists
for every graph built by finitely many operations. -/
def ClosedNodeList (g : PyGraph) (src : Node) (L : List Node) : Prop :=
  src ∈ L ∧ ∀ c ∈ L, ∀ p ∈ getNeighbors g c, p.1 ∈ L

/-- The list is a path in the graph whose consecutive pairs carry recorded
edge weights summing to the given cost. -/
inductive IsPathCost (g : PyGraph) : List Node → Rat → Prop
  | single (n : Node) : IsPathCost g [n] 0
  | cons {a b : Node} {w : Rat} {rest : List Node} {c : Rat} :
      (b, w) ∈ getNeighbors g a → IsPathCost g (b :: rest) c →
      IsPathCost g (a :: b :: rest) (w + c)

/-- Dijkstra loop invariant, over a closed node list `L`. -/
structure DInv (g : PyGraph) (src : Node) (L : List Node) (st : DState) : Prop where
  dist_src : st.dist src = some 0
  dist_nonneg : ∀ n d, st.dist n = some d → 0 ≤ d
  dist_prev : ∀ n d, st.dist n = some d → n ≠ src → ∃ c, st.prev n = some c
  prev_src : st.prev src = none
  link : ∀ n c, st.prev n = some c → ∃ w dn dc,
    (n, w) ∈ getNeighbors g c ∧ st.dist n = some dn ∧ st.dist c = some dc ∧
    dc + w ≤ dn ∧ (dn = dc + w ∨ (dc, c) ∈ st.pq)
  pq_dist : ∀ k m, (k, m) ∈ st.pq → ∃ dm, st.dist m = some dm ∧ dm ≤ k
  proc : ∀ m dm, st.dist m = some dm → (dm, m) ∈ st.pq ∨
    ((∀ k x, (k, x) ∈ st.pq → dm ≤ k) ∧
      ∀ p ∈ getNeighbors g m, ∃ dn, st.dist p.1 = some dn ∧ dn ≤ dm + p.2)
  reach : ∀ n d, st.dist n = some d → Reach g src n
  nodup : st.pq.Nodup
  inL : ∀ n d, st.dist n = some d → n ∈ L

/-- Invariant holding part-way through processing node `c` (popped with key
`k`), with `todo` the adjacency entries not yet relaxed. -/
structure MInv (g : PyGraph) (src : Node) (L : List Node) (c : Node) (k : Rat)
    (todo : List (Node × Rat)) (st : DState) : Prop where
  dist_c : st.dist c = some k
  dist_src : st.dist src = some 0
  dist_nonneg : ∀ n d, st.dist n = some d → 0 ≤ d
  dist_prev : ∀ n d, st.dist n = some d → n ≠ src → ∃ c', st.prev n = some c'
  prev_src : st.prev src = none
  link : ∀ n c', st.prev n = some c' → ∃ w dn dc,
    (n, w) ∈ getNeighbors g c' ∧ st.dist n = some dn ∧ st.dist c' = some dc ∧
    dc + w ≤ dn ∧
    (dn = dc + w ∨ (dc, c') ∈ st.pq ∨ (c' = c ∧ (n, w) ∈ todo))
  pq_dist : ∀ kx m, (kx, m) ∈ st.pq → ∃ dm, st.dist m = some dm ∧ dm ≤ kx
  keys_ge : ∀ kx x, (kx, x) ∈ st.pq → k ≤ kx
  fresh_c_out : (k, c) ∉ st.pq
  proc : ∀ m dm, st.dist m = some dm → m ≠ c → (dm, m) ∈ st.pq ∨
    (dm ≤ k ∧ (∀ kx x, (kx, x) ∈ st.pq → dm ≤ kx) ∧
      ∀ p ∈ getNeighbors g m, ∃ dn, st.dist p.1 = some dn ∧ dn ≤ dm + p.2)
  cnb : ∀ p ∈ getNeighbors g c, p ∈ todo ∨
    ∃ dn, st.dist p.1 = some dn ∧ dn ≤ k + p.2
  todo_sub : ∀ p ∈ todo, p ∈ getNeighbors g c
  reach : ∀ n d, st.dist n = some d → Reach g src n
  nodup : st.pq.Nodup
  inL : ∀ n d, st.dist n = some d → n ∈ L

/-- Unprocessed flag: the node is unseen, or its current distance is still
pending in the heap. -/
def unproc (st : DState) (m : Node) : Bool :=
  match st.dist m with
  | none => true
  | some dm => decide ((dm, m) ∈ st.pq)

/-- Nodes whose recorded distance is strictly below a bound; measure for the
backward-walk termination argument. -/
def distBelow (dist : Node → Option Rat) (bound : Rat) (m : Node) : Bool :=
  match dist m with
  | none => false
  | some dm => decide (dm < bound)

/-- A small concrete graph (the three-node line of the specification's
test scenario: edges 0-1 of weight 5 and 1-2 of weight 3). -/
def lineGraph : PyGraph :=
  { adjacency := fun a =>
      if a = 0 then some [(1, 5)]
      else if a = 1 then some [(0, 5), (2, 3)]
      else if a = 2 then some [(1, 3)]
      else none
    positions := fun _ => none
    grid := fun _ _ => [] }

/-- The graph of two isolated nodes 1 and 2, as built by the operations
`add_node(1, ...)` then `add_node(2, ...)`. -/
def isoGraph : PyGraph := applyOps [.node 1 0 0, .node 2 0 0]

/-- Effect of `add_edge` on every adjacency list. -/
theorem getNeighbors_addEdge (g : PyGraph) (a b : Node) (w : Rat) (x : Node) :
    getNeighbors (addEdge g a b w) x =
      getNeighbors g x ++ (if x = a then [(b, w)] else []) ++
        (if x = b then [(a, w)] else []) := by
  by_cases hxa : x = a <;> by_cases hxb : x = b <;>
    simp [addEdge, getNeighbors, Function.update_apply, hxa, hxb] <;>
    [skip; skip; skip; (split_ifs <;> simp [Function.update_apply, hxa, hxb])]
  · subst hxa hxb
    by_cases h0 : (g.adjacency x).isSome <;> simp [h0] <;>
      cases hA : g.adjacency x <;> simp_all
  · subst hxa
    by_cases h0 : (g.adjacency x).isSome <;>
      by_cases h1 : (g.adjacency b).isSome <;>
      simp [h0, h1, Function.update_apply, Ne.symm hxb, hxb] <;>
      cases hA : g.adjacency x <;> simp_all
  · subst hxb
    by_cases h0 : (g.adjacency a).isSome <;>
      by_cases h1 : (g.adjacency x).isSome <;>
      simp [h0, h1, Function.update_apply, Ne.symm hxa, hxa] <;>
      cases hA : g.adjacency x <;> simp_all

/-- Effect of `add_node` on every adjacency list: the inserted id is reset to
an empty list, all other entries are untouched. -/
theorem getNeighbors_addNode (g : PyGraph) (id : Node) (lat lon : Rat) (x : Node) :
    getNeighbors (addNode g id lat lon) x =
      if x = id then [] else getNeighbors g x := by
  by_cases hx : x = id <;> simp [addNode, getNeighbors, Function.update_apply, hx]

/-- The heap minimum is `none` exactly on the empty heap. -/
theorem pqMinD_eq_none {l : List (Rat × Node)} : pqMinD l = none ↔ l = [] := by
  cases l with
  | nil => simp [pqMinD]
  | cons x xs =>
    simp only [pqMinD]
    cases pqMinD xs <;> simp <;> split <;> simp

/-- The heap minimum is an element of the heap. -/
theorem pqMinD_mem : ∀ {l : List (Rat × Node)} {m}, pqMinD l = some m → m ∈ l := by
  intro l
  induction l with
  | nil => intro m h; simp [pqMinD] at h
  | cons x xs ih =>
    intro m h
    simp only [pqMinD] at h
    cases hx : pqMinD xs with
    | none =>
      rw [hx] at h
      obtain rfl : x = m := by simpa using h
      exact List.mem_cons_self _ _
    | some m' =>
      rw [hx] at h
      dsimp only at h
      by_cases hcond : x.1 < m'.1 ∨ (x.1 = m'.1 ∧ x.2 ≤ m'.2)
      · rw [if_pos hcond] at h
        obtain rfl : x = m := by simpa using h
        exact List.mem_cons_self _ _
      · rw [if_neg hcond] at h
        obtain rfl : m' = m := by simpa using h
        exact List.mem_cons_of_mem _ (ih hx)

/-- The heap minimum has the least key. -/
theorem pqMinD_le : ∀ {l : List (Rat × Node)} {m}, pqMinD l = some m →
    ∀ x ∈ l, m.1 ≤ x.1 := by
  intro l
  induction l with
  | nil => intro m h; simp [pqMinD] at h
  | cons x xs ih =>
    intro m h y hy
    simp only [pqMinD] at h
    cases hx : pqMinD xs with
    | none =>
      rw [hx] at h
      obtain rfl : x = m := by simpa using h
      rcases List.mem_cons.1 hy with h' | h'
      · subst h'; exact le_refl _
      · exact absurd (pqMinD_eq_none.1 hx ▸ h') (List.not_mem_nil _)
    | some m' =>
      rw [hx] at h
      dsimp only at h
      by_cases hcond : x.1 < m'.1 ∨ (x.1 = m'.1 ∧ x.2 ≤ m'.2)
      · rw [if_pos hcond] at h
        obtain rfl : x = m := by simpa using h
        rcases List.mem_cons.1 hy with h' | h'
        · subst h'; exact le_refl _
        · have h1 : x.1 ≤ m'.1 := by
            rcases hcond with h2 | h2
            · exact le_of_lt h2
            · exact le_of_eq h2.1
          exact le_trans h1 (ih hx y h')
      · rw [if_neg hcond] at h
        obtain rfl : m' = m := by simpa using h
        rcases List.mem_cons.1 hy with h' | h'
        · subst h'
          rcases lt_trichotomy y.1 m'.1 with h2 | h2 | h2
          · exact absurd (Or.inl h2) hcond
          · exact le_of_eq h2.symm
          · exact le_of_lt h2
        · exact ih hx y h'

/-- A pointwise implication between boolean predicates cannot increase the
filtered length. -/
theorem filter_length_le {p q : Node → Bool} (h : ∀ m, q m = true → p m = true) :
    ∀ l : List Node, (l.filter q).length ≤ (l.filter p).length := by
  intro l
  induction l with
  | nil => simp
  | cons x xs ih =>
    by_cases hq : q x
    · simp [List.filter_cons, hq, h x hq]; omega
    · simp only [List.filter_cons]
      cases hp : p x <;> simp [hq] <;> omega

/-- Strict filtered-length decrease at a witness that flips from true to
false. -/
theorem filter_length_lt {p q : Node → Bool} (h : ∀ m, q m = true → p m = true)
    {c : Node} : ∀ {l : List Node}, c ∈ l → p c = true → q c = false →
    (l.filter q).length < (l.filter p).length := by
  intro l
  induction l with
  | nil => intro h'; simp at h'
  | cons x xs ih =>
    intro hc hp hq
    rcases List.mem_cons.1 hc with h' | h'
    · subst h'
      simp [List.filter_cons, hp, hq]
      exact Nat.lt_succ_of_le (filter_length_le h xs)
    · by_cases hqx : q x
      · simp [List.filter_cons, hqx, h x hqx]
        exact ih h' hp hq
      · simp only [List.filter_cons]
        cases hpx : p x <;> simp [hqx]
        · exact ih h' hp hq
        · exact Nat.lt_succ_of_lt (ih h' hp hq)

/-- An exhausted-predecessor walk returns its accumulator at any fuel. -/
theorem walkPrev_stop {prev : Node → Option Node} {cur : Node} (h : prev cur = none) :
    ∀ fuel acc, walkPrev prev fuel cur acc = some acc := by
  intro fuel acc; cases fuel <;> simp [walkPrev, h]

/-- The accumulator of the backward walk is a prefix of the result. -/
theorem walkPrev_acc (prev : Node → Option Node) :
    ∀ (fuel : Nat) (cur : Node) (acc : List Node),
      walkPrev prev fuel cur acc = (walkPrev prev fuel cur []).map (acc ++ ·) := by
  intro fuel
  induction fuel with
  | zero => intro cur acc; cases h : prev cur <;> simp [walkPrev, h]
  | succ f ih =>
    intro cur acc
    cases h : prev cur with
    | none => simp [walkPrev, h]
    | some p =>
      simp only [walkPrev, h, List.nil_append]
      rw [ih p (acc ++ [cur]), ih p [cur]]
      cases walkPrev prev f p [] <;> simp

/-- More fuel never changes a finished walk. -/
theorem walkPrev_mono {prev : Node → Option Node} :
    ∀ {fuel : Nat} {cur : Node} {acc r : List Node} {fuel' : Nat},
      walkPrev prev fuel cur acc = some r → fuel ≤ fuel' →
      walkPrev prev fuel' cur acc = some r := by
  intro fuel
  induction fuel with
  | zero =>
    intro cur acc r fuel' h _
    cases hp : prev cur with
    | none => rw [walkPrev_stop hp] at *; simpa [walkPrev_stop hp] using h
    | some p => simp [walkPrev, hp] at h
  | succ f ih =>
    intro cur acc r fuel' h hle
    cases hp : prev cur with
    | none => rw [walkPrev_stop hp] at *; simpa [walkPrev_stop hp] using h
    | some p =>
      obtain ⟨f', rfl⟩ : ∃ f', fuel' = f' + 1 := ⟨fuel' - 1, by omega⟩
      simp only [walkPrev, hp] at h ⊢
      exact ih h (by omega)

/-- Inversion of a successful relaxation guard. -/
theorem improves_true {nd : Rat} {d : Option Rat} (h : improves nd d = true) :
    d = none ∨ ∃ dv, d = some dv ∧ nd < dv := by
  cases d with
  | none => exact Or.inl rfl
  | some dv =>
    right
    refine ⟨dv, rfl, ?_⟩
    simpa [improves] using h

/-- Inversion of a failed relaxation guard. -/
theorem improves_false {nd : Rat} {d : Option Rat} (h : improves nd d = false) :
    ∃ dv, d = some dv ∧ dv ≤ nd := by
  cases d with
  | none => simp [improves] at h
  | some dv =>
    refine ⟨dv, rfl, ?_⟩
    simpa [improves] using h

/-- Inversion of a triggered lazy-deletion guard. -/
theorem staleKey_true {d : Option Rat} {cd : Rat} (h : staleKey d cd = true) :
    ∃ dv, d = some dv ∧ dv < cd := by
  cases d with
  | none => simp [staleKey] at h
  | some dv => exact ⟨dv, rfl, by simpa [staleKey] using h⟩

/-- Inversion of an untriggered lazy-deletion guard. -/
theorem staleKey_false {d : Option Rat} {cd : Rat} (h : staleKey d cd = false) :
    ∀ dv, d = some dv → cd ≤ dv := by
  intro dv hdv
  subst hdv
  simpa [staleKey] using h

/-- More fuel never changes a finished main loop. -/
theorem runD_mono {g : PyGraph} {dst : Node} :
    ∀ {fuel : Nat} {st st' : DState} {fuel' : Nat},
      runD g dst fuel st = some st' → fuel ≤ fuel' →
      runD g dst fuel' st = some st' := by
  intro fuel
  induction fuel with
  | zero => intro st st' fuel' h _; simp [runD] at h
  | succ f ih =>
    intro st st' fuel' h hle
    obtain ⟨f', rfl⟩ : ∃ f', fuel' = f' + 1 := ⟨fuel' - 1, by omega⟩
    have hff : f ≤ f' := by omega
    simp only [runD] at h ⊢
    cases hm : pqMinD st.pq with
    | none => rw [hm] at h; exact h
    | some kc =>
      obtain ⟨cd, c⟩ := kc
      rw [hm] at h
      dsimp only at h ⊢
      by_cases hc : c = dst
      · simpa [hc] using h
      · rw [if_neg hc] at h ⊢
        by_cases hs : staleKey (st.dist c) cd = true
        · rw [if_pos hs] at h ⊢; exact ih h hff
        · rw [if_neg hs] at h ⊢; exact ih h hff

/-- Processing the remaining adjacency entries of the popped node preserves
the mid-processing invariant and never revives a processed node. -/
theorem relaxD_step {g : PyGraph} {src : Node} {L : List Node} {c : Node} {k : Rat}
    (hw : WeightsNonneg g) (hcl : ClosedNodeList g src L) :
    ∀ (todo : List (Node × Rat)) (st : DState), MInv g src L c k todo st →
      MInv g src L c k [] (relaxD k c todo st) ∧
      (∀ m, unproc (relaxD k c todo st) m = true → unproc st m = true) := by
  intro todo
  induction todo with
  | nil => intro st hm; exact ⟨hm, fun m h => h⟩
  | cons p rest ih =>
    obtain ⟨n, w⟩ := p
    intro st hm
    have hedge : (n, w) ∈ getNeighbors g c := hm.todo_sub (n, w) (List.mem_cons_self _ _)
    have hw0 : 0 ≤ w := hw c (n, w) hedge
    have hk0 : 0 ≤ k := hm.dist_nonneg c k hm.dist_c
    by_cases himp : improves (k + w) (st.dist n) = true
    · -- successful relaxation: update dist/prev and push
      set S : DState :=
        { pq := st.pq ++ [(k + w, n)]
          dist := Function.update st.dist n (some (k + w))
          prev := Function.update st.prev n (some c) } with hSdef
      have hrw : relaxD k c ((n, w) :: rest) st = relaxD k c rest S := by
        rw [hSdef]
        simp only [relaxD]
        rw [if_pos himp]
      have hnc : n ≠ c := by
        intro h; subst h
        rcases improves_true himp with h1 | ⟨dv, hdv, hlt⟩
        · rw [hm.dist_c] at h1; cases h1
        · rw [hm.dist_c] at hdv
          injection hdv with hdv; subst hdv; linarith
      have hns : n ≠ src := by
        intro h; subst h
        rcases improves_true himp with h1 | ⟨dv, hdv, hlt⟩
        · rw [hm.dist_src] at h1; cases h1
        · rw [hm.dist_src] at hdv
          injection hdv with hdv; subst hdv; linarith
      have hn_unproc : st.dist n = none ∨ ∃ dn₀, st.dist n = some dn₀ ∧ (dn₀, n) ∈ st.pq := by
        rcases improves_true himp with h1 | ⟨dv, hdv, hlt⟩
        · exact Or.inl h1
        · right
          refine ⟨dv, hdv, ?_⟩
          rcases hm.proc n dv hdv hnc with h2 | ⟨hle, _, _⟩
          · exact h2
          · exfalso; linarith
      have hnew_notmem : (k + w, n) ∉ st.pq := by
        intro hmem
        obtain ⟨dm, hdm, hle⟩ := hm.pq_dist (k + w) n hmem
        rcases improves_true himp with h1 | ⟨dv, hdv, hlt⟩
        · rw [h1] at hdm; cases hdm
        · rw [hdv] at hdm; injection hdm with h2; subst h2; linarith
      have hSdist_n : S.dist n = some (k + w) := by
        simp [hSdef, Function.update_same]
      have hSdist_other : ∀ m, m ≠ n → S.dist m = st.dist m := by
        intro m hmn; simp [hSdef, Function.update_noteq hmn]
      have hSprev_n : S.prev n = some c := by
        simp [hSdef, Function.update_same]
      have hSprev_other : ∀ m, m ≠ n → S.prev m = st.prev m := by
        intro m hmn; simp [hSdef, Function.update_noteq hmn]
      have hS : MInv g src L c k rest S := by
        refine
          { dist_c := ?_, dist_src := ?_, dist_nonneg := ?_, dist_prev := ?_
            prev_src := ?_, link := ?_, pq_dist := ?_, keys_ge := ?_
            fresh_c_out := ?_, proc := ?_, cnb := ?_, todo_sub := ?_
            reach := ?_, nodup := ?_, inL := ?_ }
        · rw [hSdist_other c (Ne.symm hnc)]; exact hm.dist_c
        · rw [hSdist_other src (Ne.symm hns)]; exact hm.dist_src
        · intro m d hd
          by_cases hmn : m = n
          · subst hmn; rw [hSdist_n] at hd; injection hd with hd; subst hd; linarith
          · rw [hSdist_other m hmn] at hd; exact hm.dist_nonneg m d hd
        · intro m d hd hmsrc
          by_cases hmn : m = n
          · subst hmn; exact ⟨c, hSprev_n⟩
          · rw [hSdist_other m hmn] at hd
            obtain ⟨c', hc'⟩ := hm.dist_prev m d hd hmsrc
            exact ⟨c', by rw [hSprev_other m hmn]; exact hc'⟩
        · rw [hSprev_other src (Ne.symm hns)]; exact hm.prev_src
        · intro m c' hmc'
          by_cases hmn : m = n
          · subst hmn
            rw [hSprev_n] at hmc'
            injection hmc' with hmc'; subst hmc'
            exact ⟨w, k + w, k, hedge, hSdist_n,
              by rw [hSdist_other c (Ne.symm hnc)]; exact hm.dist_c,
              le_refl _, Or.inl rfl⟩
          · rw [hSprev_other m hmn] at hmc'
            obtain ⟨w', dn', dc', hedge', hdn', hdc', hle', hdisj⟩ := hm.link m c' hmc'
            by_cases hcn' : c' = n
            · subst hcn'
              have hlt : k + w < dc' := by
                rcases improves_true himp with h1 | ⟨dv, hdv, hltv⟩
                · rw [h1] at hdc'; cases hdc'
                · rw [hdv] at hdc'; injection hdc' with h2; subst h2; exact hltv
              refine ⟨w', dn', k + w, hedge', by rw [hSdist_other m hmn]; exact hdn',
                hSdist_n, by linarith, Or.inr (Or.inl ?_)⟩
              exact List.mem_append_right _ (List.mem_singleton_self _)
            · refine ⟨w', dn', dc', hedge', by rw [hSdist_other m hmn]; exact hdn',
                by rw [hSdist_other c' hcn']; exact hdc', hle', ?_⟩
              rcases hdisj with h1 | h1 | ⟨h1, h2⟩
              · exact Or.inl h1
              · exact Or.inr (Or.inl (List.mem_append_left _ h1))
              · subst h1
                rcases List.mem_cons.1 h2 with h3 | h3
                · exfalso
                  have : m = n := congrArg Prod.fst h3
                  exact hmn this
                · exact Or.inr (Or.inr ⟨rfl, h3⟩)
        · intro kx x hx
          rcases List.mem_append.1 hx with hx | hx
          · obtain ⟨dm, hdm, hle⟩ := hm.pq_dist kx x hx
            by_cases hxn : x = n
            · subst hxn
              have hlt : k + w < dm := by
                rcases improves_true himp with h1 | ⟨dv, hdv, hltv⟩
                · rw [h1] at hdm; cases hdm
                · rw [hdv] at hdm; injection hdm with h2; subst h2; exact hltv
              exact ⟨k + w, hSdist_n, by linarith⟩
            · exact ⟨dm, by rw [hSdist_other x hxn]; exact hdm, hle⟩
          · rcases List.mem_singleton.1 hx with h1
            have hkx : kx = k + w := congrArg Prod.fst h1
            have hxn : x = n := congrArg Prod.snd h1
            subst hkx hxn
            exact ⟨k + w, hSdist_n, le_refl _⟩
        · intro kx x hx
          rcases List.mem_append.1 hx with hx | hx
          · exact hm.keys_ge kx x hx
          · rcases List.mem_singleton.1 hx with h1
            have hkx : kx = k + w := congrArg Prod.fst h1
            subst hkx; linarith
        · intro hmem
          rcases List.mem_append.1 hmem with h1 | h1
          · exact hm.fresh_c_out h1
          · rcases List.mem_singleton.1 h1 with h2
            exact hnc (congrArg Prod.snd h2).symm
        · intro m dm hdm hmc
          by_cases hmn : m = n
          · subst hmn
            rw [hSdist_n] at hdm
            injection hdm with hdm; subst hdm
            exact Or.inl (List.mem_append_right _ (List.mem_singleton_self _))
          · rw [hSdist_other m hmn] at hdm
            rcases hm.proc m dm hdm hmc with h1 | ⟨hmk, hkeydom, hnbrs⟩
            · exact Or.inl (List.mem_append_left _ h1)
            · refine Or.inr ⟨hmk, ?_, ?_⟩
              · intro kx x hx
                rcases List.mem_append.1 hx with hx | hx
                · exact hkeydom kx x hx
                · rcases List.mem_singleton.1 hx with h1
                  have hkx : kx = k + w := congrArg Prod.fst h1
                  subst hkx; linarith
              · intro p hp
                obtain ⟨dn₁, hdn₁, hle₁⟩ := hnbrs p hp
                by_cases hpn : p.1 = n
                · rw [hpn] at hdn₁
                  have hlt : k + w < dn₁ := by
                    rcases improves_true himp with h1 | ⟨dv, hdv, hltv⟩
                    · rw [h1] at hdn₁; cases hdn₁
                    · rw [hdv] at hdn₁; injection hdn₁ with h2; subst h2; exact hltv
                  exact ⟨k + w, by rw [hpn]; exact hSdist_n, by linarith⟩
                · exact ⟨dn₁, by rw [hSdist_other p.1 hpn]; exact hdn₁, hle₁⟩
        · intro p hp
          rcases hm.cnb p hp with h1 | ⟨dn₁, hdn₁, hle₁⟩
          · rcases List.mem_cons.1 h1 with h2 | h2
            · right
              refine ⟨k + w, ?_, ?_⟩
              · rw [show p.1 = n from congrArg Prod.fst h2]; exact hSdist_n
              · rw [show p.2 = w from congrArg Prod.snd h2]
            · exact Or.inl h2
          · right
            by_cases hpn : p.1 = n
            · rw [hpn] at hdn₁
              have hlt : k + w < dn₁ := by
                rcases improves_true himp with h1 | ⟨dv, hdv, hltv⟩
                · rw [h1] at hdn₁; cases hdn₁
                · rw [hdv] at hdn₁; injection hdn₁ with h2; subst h2; exact hltv
              exact ⟨k + w, by rw [hpn]; exact hSdist_n, by linarith⟩
            · exact ⟨dn₁, by rw [hSdist_other p.1 hpn]; exact hdn₁, hle₁⟩
        · intro p hp
          exact hm.todo_sub p (List.mem_cons_of_mem _ hp)
        · intro m d hd
          by_cases hmn : m = n
          · subst hmn
            exact Reach.step (hm.reach c k hm.dist_c) hedge
          · rw [hSdist_other m hmn] at hd
            exact hm.reach m d hd
        · rw [hSdef]
          simp only [List.nodup_append]
          exact ⟨hm.nodup, List.nodup_singleton _, by
            intro a ha hb
            rw [List.mem_singleton.1 hb] at ha
            exact hnew_notmem ha⟩
        · intro m d hd
          by_cases hmn : m = n
          · subst hmn
            exact hcl.2 c (hm.inL c k hm.dist_c) (m, w) hedge
          · rw [hSdist_other m hmn] at hd
            exact hm.inL m d hd
      have hmonoS : ∀ m, unproc S m = true → unproc st m = true := by
        intro m hum
        by_cases hmn : m = n
        · subst hmn
          rcases hn_unproc with h1 | ⟨dn₀, hdn₀, hmem⟩
          · simp [unproc, h1]
          · simp [unproc, hdn₀, hmem]
        · simp only [unproc] at hum ⊢
          rw [Function.update_noteq hmn] at hum
          cases hd : st.dist m with
          | none => simp [hd]
          | some dm =>
            rw [hd] at hum
            simp only [decide_eq_true_eq] at hum ⊢
            rcases List.mem_append.1 hum with h1 | h1
            · exact h1
            · exfalso
              rcases List.mem_singleton.1 h1 with h2
              exact hmn (congrArg Prod.snd h2)
      obtain ⟨hfin, hmono⟩ := ih S hS
      rw [hrw]
      exact ⟨hfin, fun m h => hmonoS m (hmono m h)⟩
    · -- failed relaxation: state unchanged, the entry is already satisfied
      have himpf : improves (k + w) (st.dist n) = false := by
        rwa [Bool.not_eq_true] at himp
      have hrw : relaxD k c ((n, w) :: rest) st = relaxD k c rest st := by
        simp only [relaxD]
        rw [if_neg himp]
      obtain ⟨dn₀, hdn₀, hle₀⟩ := improves_false himpf
      have hS : MInv g src L c k rest st := by
        refine
          { dist_c := hm.dist_c, dist_src := hm.dist_src
            dist_nonneg := hm.dist_nonneg, dist_prev := hm.dist_prev
            prev_src := hm.prev_src, link := ?_, pq_dist := hm.pq_dist
            keys_ge := hm.keys_ge, fresh_c_out := hm.fresh_c_out
            proc := hm.proc, cnb := ?_, todo_sub := ?_
            reach := hm.reach, nodup := hm.nodup, inL := hm.inL }
        · intro m c' hmc'
          obtain ⟨w', dn', dc', hedge', hdn', hdc', hle', hdisj⟩ := hm.link m c' hmc'
          refine ⟨w', dn', dc', hedge', hdn', hdc', hle', ?_⟩
          rcases hdisj with h1 | h1 | ⟨h1, h2⟩
          · exact Or.inl h1
          · exact Or.inr (Or.inl h1)
          · subst h1
            rcases List.mem_cons.1 h2 with h3 | h3
            · left
              have hmn : m = n := congrArg Prod.fst h3
              have hww : w' = w := congrArg Prod.snd h3
              subst hmn hww
              have hdc'' : dc' = k := by
                rw [hm.dist_c] at hdc'; injection hdc' with h4; exact h4.symm
              have hdn'' : dn' = dn₀ := by
                rw [hdn₀] at hdn'; injection hdn' with h4; exact h4.symm
              subst hdc'' hdn''
              linarith
            · exact Or.inr (Or.inr ⟨rfl, h3⟩)
        · intro p hp
          rcases hm.cnb p hp with h1 | h1
          · rcases List.mem_cons.1 h1 with h2 | h2
            · right
              refine ⟨dn₀, ?_, ?_⟩
              · rw [show p.1 = n from congrArg Prod.fst h2]; exact hdn₀
              · rw [show p.2 = w from congrArg Prod.snd h2]; exact hle₀
            · exact Or.inl h2
          · exact Or.inr h1
        · intro p hp
          exact hm.todo_sub p (List.mem_cons_of_mem _ hp)
      rw [hrw]
      exact ih st hS

/-- Once every adjacency entry of the popped node has been handled, the
mid-processing invariant yields the plain loop invariant again. -/
theorem minv_final_dinv {g : PyGraph} {src : Node} {L : List Node} {c : Node} {k : Rat}
    {st : DState} (hm : MInv g src L c k [] st) : DInv g src L st := by
  refine
    { dist_src := hm.dist_src, dist_nonneg := hm.dist_nonneg
      dist_prev := hm.dist_prev, prev_src := hm.prev_src
      link := ?_, pq_dist := hm.pq_dist, proc := ?_
      reach := hm.reach, nodup := hm.nodup, inL := hm.inL }
  · intro n c' h
    obtain ⟨w', dn', dc', hedge', hdn', hdc', hle', hdisj⟩ := hm.link n c' h
    refine ⟨w', dn', dc', hedge', hdn', hdc', hle', ?_⟩
    rcases hdisj with h1 | h1 | ⟨_, h2⟩
    · exact Or.inl h1
    · exact Or.inr h1
    · exact absurd h2 (List.not_mem_nil _)
  · intro m dm hdm
    by_cases hmc : m = c
    · subst hmc
      have hdmk : dm = k := by
        rw [hm.dist_c] at hdm; injection hdm with h; exact h.symm
      subst hdmk
      refine Or.inr ⟨hm.keys_ge, ?_⟩
      intro p hp
      rcases hm.cnb p hp with h1 | h1
      · exact absurd h1 (List.not_mem_nil _)
      · exact h1
    · rcases hm.proc m dm hdm hmc with h1 | ⟨_, h2, h3⟩
      · exact Or.inl h1
      · exact Or.inr ⟨h2, h3⟩

/-- Popping a fresh minimum establishes the mid-processing invariant on the
state with the popped entry removed and the full adjacency list pending. -/
theorem dinv_pop_minv {g : PyGraph} {src : Node} {L : List Node} {st : DState}
    {k : Rat} {c : Node} (hinv : DInv g src L st)
    (hmin : pqMinD st.pq = some (k, c)) (hstale : staleKey (st.dist c) k = false) :
    MInv g src L c k (getNeighbors g c)
      { pq := st.pq.erase (k, c), dist := st.dist, prev := st.prev } := by
  have hmem : (k, c) ∈ st.pq := pqMinD_mem hmin
  obtain ⟨dc, hdc, hdck⟩ := hinv.pq_dist k c hmem
  have hkdc : k ≤ dc := staleKey_false hstale dc hdc
  have hdceq : dc = k := le_antisymm hdck hkdc
  subst hdceq
  have hmin_le : ∀ x ∈ st.pq, dc ≤ x.1 := pqMinD_le hmin
  refine
    { dist_c := hdc, dist_src := hinv.dist_src, dist_nonneg := hinv.dist_nonneg
      dist_prev := hinv.dist_prev, prev_src := hinv.prev_src
      link := ?_, pq_dist := ?_, keys_ge := ?_, fresh_c_out := ?_
      proc := ?_, cnb := fun p hp => Or.inl hp, todo_sub := fun p hp => hp
      reach := hinv.reach, nodup := hinv.nodup.erase _
      inL := hinv.inL }
  · intro n c' h
    obtain ⟨w', dn', dc', hedge', hdn', hdc', hle', hdisj⟩ := hinv.link n c' h
    refine ⟨w', dn', dc', hedge', hdn', hdc', hle', ?_⟩
    rcases hdisj with h1 | h1
    · exact Or.inl h1
    · by_cases h2 : (dc', c') = (dc, c)
      · right; right
        have hc' : c' = c := congrArg Prod.snd h2
        subst hc'
        exact ⟨rfl, hedge'⟩
      · exact Or.inr (Or.inl ((List.mem_erase_of_ne h2).2 h1))
  · intro kx m h
    exact hinv.pq_dist kx m (List.mem_of_mem_erase h)
  · intro kx x h
    exact hmin_le (kx, x) (List.mem_of_mem_erase h)
  · intro h
    exact absurd ((hinv.nodup.mem_erase_iff).1 h).1 (by simp)
  · intro m dm hdm hmc
    rcases hinv.proc m dm hdm with h1 | ⟨hkeydom, hnbrs⟩
    · left
      refine (List.mem_erase_of_ne ?_).2 h1
      intro h2
      exact hmc (congrArg Prod.snd h2)
    · refine Or.inr ⟨hkeydom dc c hmem, ?_, hnbrs⟩
      intro kx x hx
      exact hkeydom kx x (List.mem_of_mem_erase hx)

/-- Popping a stale entry merely shrinks the heap: the loop invariant is
preserved and no node loses its pending entry. -/
theorem dinv_stale_step {g : PyGraph} {src : Node} {L : List Node} {st : DState}
    {k : Rat} {c : Node} (hinv : DInv g src L st)
    (hmin : pqMinD st.pq = some (k, c)) (hstale : staleKey (st.dist c) k = true) :
    DInv g src L { pq := st.pq.erase (k, c), dist := st.dist, prev := st.prev } ∧
      ∀ m, unproc { pq := st.pq.erase (k, c), dist := st.dist, prev := st.prev } m = true →
        unproc st m = true := by
  obtain ⟨dv, hdv, hvlt⟩ := staleKey_true hstale
  constructor
  · refine
      { dist_src := hinv.dist_src, dist_nonneg := hinv.dist_nonneg
        dist_prev := hinv.dist_prev, prev_src := hinv.prev_src
        link := ?_, pq_dist := ?_, proc := ?_
        reach := hinv.reach, nodup := hinv.nodup.erase _, inL := hinv.inL }
    · intro n c' h
      obtain ⟨w', dn', dc', hedge', hdn', hdc', hle', hdisj⟩ := hinv.link n c' h
      refine ⟨w', dn', dc', hedge', hdn', hdc', hle', ?_⟩
      rcases hdisj with h1 | h1
      · exact Or.inl h1
      · right
        refine (List.mem_erase_of_ne ?_).2 h1
        intro h2
        have hc' : c' = c := congrArg Prod.snd h2
        have hk' : dc' = k := congrArg Prod.fst h2
        subst hc' hk'
        rw [hdv] at hdc'
        injection hdc' with h3
        exact absurd h3 (ne_of_lt hvlt)
    · intro kx m h
      exact hinv.pq_dist kx m (List.mem_of_mem_erase h)
    · intro m dm hdm
      rcases hinv.proc m dm hdm with h1 | ⟨hkeydom, hnbrs⟩
      · left
        refine (List.mem_erase_of_ne ?_).2 h1
        intro h2
        have hmc : m = c := congrArg Prod.snd h2
        have hmk : dm = k := congrArg Prod.fst h2
        subst hmc hmk
        rw [hdv] at hdm
        injection hdm with h3
        exact absurd h3 (ne_of_lt hvlt)
      · refine Or.inr ⟨?_, hnbrs⟩
        intro kx x hx
        exact hkeydom kx x (List.mem_of_mem_erase hx)
  · intro m hum
    simp only [unproc] at hum ⊢
    cases hd : st.dist m with
    | none => simp
    | some dm =>
      rw [hd] at hum
      simp only [decide_eq_true_eq] at hum ⊢
      exact List.mem_of_mem_erase hum

/-- Removing a heap entry cannot revive a processed node. -/
theorem unproc_erase_mono {st : DState} {e : Rat × Node} :
    ∀ m, unproc { pq := st.pq.erase e, dist := st.dist, prev := st.prev } m = true →
      unproc st m = true := by
  intro m hum
  simp only [unproc] at hum ⊢
  cases hd : st.dist m with
  | none => simp
  | some dm =>
    rw [hd] at hum
    simp only [decide_eq_true_eq] at hum ⊢
    exact List.mem_of_mem_erase hum

/-- A finished main loop ends in an invariant state whose heap is either
empty or has the destination as its pending minimum (the `break`). -/
theorem runD_exit {g : PyGraph} {src dst : Node} {L : List Node}
    (hw : WeightsNonneg g) (hcl : ClosedNodeList g src L) :
    ∀ (fuel : Nat) (st st' : DState), DInv g src L st →
      runD g dst fuel st = some st' →
      ∃ PQ : List (Rat × Node),
        DInv g src L { pq := PQ, dist := st'.dist, prev := st'.prev } ∧
        ((PQ = [] ∧ st'.pq = PQ) ∨
          ∃ k, pqMinD PQ = some (k, dst) ∧ st'.pq = PQ.erase (k, dst)) := by
  intro fuel
  induction fuel with
  | zero => intro st st' _ h; simp [runD] at h
  | succ f ih =>
    intro st st' hinv h
    simp only [runD] at h
    cases hm : pqMinD st.pq with
    | none =>
      rw [hm] at h
      injection h with h
      subst h
      exact ⟨st.pq, hinv, Or.inl ⟨pqMinD_eq_none.1 hm, rfl⟩⟩
    | some kc =>
      rw [hm] at h
      obtain ⟨cd, c⟩ := kc
      dsimp only at h
      by_cases hc : c = dst
      · rw [if_pos hc] at h
        injection h with h
        subst h hc
        exact ⟨st.pq, hinv, Or.inr ⟨cd, hm, rfl⟩⟩
      · rw [if_neg hc] at h
        by_cases hs : staleKey (st.dist c) cd = true
        · rw [if_pos hs] at h
          obtain ⟨hinv₂, _⟩ := dinv_stale_step hinv hm hs
          exact ih _ _ hinv₂ h
        · rw [if_neg hs] at h
          have hs' : staleKey (st.dist c) cd = false := by
            rwa [Bool.not_eq_true] at hs
          have hminv := dinv_pop_minv hinv hm hs'
          obtain ⟨hfin, _⟩ := relaxD_step hw hcl _ _ hminv
          exact ih _ _ (minv_final_dinv hfin) h

/-- The main loop terminates from any invariant state: the number of
unprocessed nodes, then the heap size, decreases at every iteration. -/
theorem runD_total {g : PyGraph} {src : Node} (dst : Node) {L : List Node}
    (hw : WeightsNonneg g) (hcl : ClosedNodeList g src L) :
    ∀ (a b : Nat) (st : DState), DInv g src L st →
      (L.dedup.filter (unproc st)).length < a → st.pq.length < b →
      ∃ fuel st', runD g dst fuel st = some st' := by
  intro a
  induction a with
  | zero => intro b st _ hca _; omega
  | succ a iha =>
    intro b
    induction b with
    | zero => intro st _ _ hcb; omega
    | succ b ihb =>
      intro st hinv hca hcb
      cases hm : pqMinD st.pq with
      | none => exact ⟨1, st, by simp [runD, hm]⟩
      | some kc =>
        obtain ⟨cd, c⟩ := kc
        by_cases hc : c = dst
        · subst hc
          exact ⟨1, { st with pq := st.pq.erase (cd, c) }, by simp [runD, hm]⟩
        · by_cases hs : staleKey (st.dist c) cd = true
          · obtain ⟨hinv₂, hmono⟩ := dinv_stale_step hinv hm hs
            have hca₂ :
                (L.dedup.filter
                  (unproc ⟨st.pq.erase (cd, c), st.dist, st.prev⟩)).length < a + 1 :=
              lt_of_le_of_lt (filter_length_le hmono L.dedup) hca
            have hcb₂ : (st.pq.erase (cd, c)).length < b := by
              have h1 := List.length_erase_of_mem (pqMinD_mem hm)
              have h2 : 0 < st.pq.length := List.length_pos_of_mem (pqMinD_mem hm)
              omega
            obtain ⟨fuel, st', hrun⟩ := ihb _ hinv₂ hca₂ hcb₂
            refine ⟨fuel + 1, st', ?_⟩
            simp only [runD, hm]
            rw [if_neg hc, if_pos hs]
            exact hrun
          · have hs' : staleKey (st.dist c) cd = false := by
              rwa [Bool.not_eq_true] at hs
            have hminv := dinv_pop_minv hinv hm hs'
            obtain ⟨hfin, hmono⟩ := relaxD_step hw hcl _ _ hminv
            have hdc : st.dist c = some cd := hminv.dist_c
            have hpc : unproc st c = true := by
              simp only [unproc, hdc, decide_eq_true_eq]
              exact pqMinD_mem hm
            have hqc : unproc (relaxD cd c (getNeighbors g c)
                ⟨st.pq.erase (cd, c), st.dist, st.prev⟩) c = false := by
              have h1 := hfin.dist_c
              have h2 := hfin.fresh_c_out
              simp only [unproc, h1, decide_eq_true_eq]
              simpa using h2
            have hmono' : ∀ m, unproc (relaxD cd c (getNeighbors g c)
                ⟨st.pq.erase (cd, c), st.dist, st.prev⟩) m = true →
                unproc st m = true :=
              fun m h => unproc_erase_mono m (hmono m h)
            have hcL : c ∈ L.dedup := List.mem_dedup.2 (hinv.inL c cd hdc)
            have hstrict := filter_length_lt hmono' hcL hpc hqc
            have hca₂ : (L.dedup.filter (unproc (relaxD cd c (getNeighbors g c)
                ⟨st.pq.erase (cd, c), st.dist, st.prev⟩))).length < a := by omega
            obtain ⟨fuel, st', hrun⟩ :=
              iha ((relaxD cd c (getNeighbors g c)
                ⟨st.pq.erase (cd, c), st.dist, st.prev⟩).pq.length + 1) _
                (minv_final_dinv hfin) hca₂ (Nat.lt_succ_self _)
            refine ⟨fuel + 1, st', ?_⟩
            simp only [runD, hm]
            rw [if_neg hc, if_neg hs]
            exact hrun

/-- A recorded edge out of the last node extends a costed path. -/
theorem isPathCost_append {g : PyGraph} :
    ∀ {l : List Node} {cl : Rat}, IsPathCost g l cl →
      ∀ {a b : Node} {w : Rat}, l.getLast? = some a → (b, w) ∈ getNeighbors g a →
      IsPathCost g (l ++ [b]) (cl + w) := by
  intro l cl hp
  induction hp with
  | single n =>
    intro a b w hlast hedge
    have han : a = n := by simpa using hlast.symm
    subst han
    have h2 := IsPathCost.cons hedge (IsPathCost.single b)
    rw [show (0 : Rat) + w = w + 0 by ring]
    exact h2
  | cons hedge0 hrest ih =>
    intro a b w hlast hedge
    rename_i a0 b0 w0 rest c0
    have hlast' : (b0 :: rest).getLast? = some a := by
      simpa [List.getLast?_cons_cons] using hlast
    have h2 := ih hlast' hedge
    rw [show w0 + c0 + w = w0 + (c0 + w) by ring]
    exact IsPathCost.cons hedge0 h2

/-- Backward-walk exactness: under the exit-state link condition, the walk
from any node whose distance is at most the destination distance produces a
recorded path from the source whose edge weights sum to that distance. -/
theorem walk_path {g : PyGraph} {src : Node} {dist : Node → Option Rat}
    {prev : Node → Option Node} {de : Rat}
    (hw : WeightsNonneg g)
    (hsrc0 : dist src = some 0)
    (hdp : ∀ n d, dist n = some d → n ≠ src → ∃ c, prev n = some c)
    (hlink : ∀ n c, prev n = some c → ∃ w dn dc,
      (n, w) ∈ getNeighbors g c ∧ dist n = some dn ∧ dist c = some dc ∧
      dc + w ≤ dn ∧ (dn = dc + w ∨ de ≤ dc)) :
    ∀ (fuel : Nat) (cur : Node) (dcur : Rat) (res : List Node),
      dist cur = some dcur → dcur ≤ de →
      walkPrev prev fuel cur [] = some res →
      IsPathCost g ((res ++ [src]).reverse) dcur ∧
      ((res ++ [src]).reverse).getLast? = some cur := by
  intro fuel
  induction fuel with
  | zero =>
    intro cur dcur res hdcur hde hwalk
    cases hp : prev cur with
    | some p => simp [walkPrev, hp] at hwalk
    | none =>
      have hcur : cur = src := by
        by_contra hne
        obtain ⟨c, hc⟩ := hdp cur dcur hdcur hne
        rw [hp] at hc; cases hc
      subst hcur
      rw [walkPrev_stop hp] at hwalk
      injection hwalk with h
      subst h
      have hd0 : dcur = 0 := by
        rw [hsrc0] at hdcur; injection hdcur with h; exact h.symm
      subst hd0
      exact ⟨IsPathCost.single _, by simp⟩
  | succ f ih =>
    intro cur dcur res hdcur hde hwalk
    cases hp : prev cur with
    | none =>
      have hcur : cur = src := by
        by_contra hne
        obtain ⟨c, hc⟩ := hdp cur dcur hdcur hne
        rw [hp] at hc; cases hc
      subst hcur
      rw [walkPrev_stop hp] at hwalk
      injection hwalk with h
      subst h
      have hd0 : dcur = 0 := by
        rw [hsrc0] at hdcur; injection hdcur with h; exact h.symm
      subst hd0
      exact ⟨IsPathCost.single _, by simp⟩
    | some c =>
      have hstep : walkPrev prev (f+1) cur [] = walkPrev prev f c [cur] := by
        simp [walkPrev, hp]
      rw [hstep, walkPrev_acc prev f c [cur]] at hwalk
      cases hrec : walkPrev prev f c [] with
      | none => rw [hrec] at hwalk; exact Option.noConfusion hwalk
      | some res' =>
        rw [hrec] at hwalk
        injection hwalk with hwalk
        obtain ⟨w, dn, dc, hedge, hdn, hdc, hle, hdisj⟩ := hlink cur c hp
        have hdn' : dn = dcur := by
          rw [hdcur] at hdn; injection hdn with h; exact h.symm
        subst hdn'
        have hw0 : 0 ≤ w := hw c (cur, w) hedge
        have hexact : dn = dc + w := by
          rcases hdisj with h1 | h1
          · exact h1
          · linarith
        have hdcde : dc ≤ de := by linarith
        obtain ⟨hpath, hlast⟩ := ih c dc res' hdc hdcde hrec
        subst hwalk
        have hrew : (([cur] ++ res') ++ [src]).reverse =
            ((res' ++ [src]).reverse) ++ [cur] := by simp
        rw [hrew]
        constructor
        · have h3 := isPathCost_append hpath hlast hedge
          rw [hexact]
          exact h3
        · exact List.getLast?_concat _

/-- Inversion of the distance-below flag. -/
theorem distBelow_true {dist : Node → Option Rat} {bound : Rat} {m : Node}
    (h : distBelow dist bound m = true) : ∃ dm, dist m = some dm ∧ dm < bound := by
  cases hd : dist m with
  | none => simp [distBelow, hd] at h
  | some dm =>
    refine ⟨dm, rfl, ?_⟩
    simpa [distBelow, hd] using h

/-- Backward-walk termination: distances strictly decrease along predecessor
links, so the walk finishes within fuel exceeding the number of nodes
strictly below the current distance. -/
theorem walk_total {L : List Node} {dist : Node → Option Rat}
    {prev : Node → Option Node}
    (hlink : ∀ n c, prev n = some c → ∃ dn dc,
      dist n = some dn ∧ dist c = some dc ∧ dc < dn)
    (hinL : ∀ n d, dist n = some d → n ∈ L) :
    ∀ (m : Nat) (cur : Node) (dcur : Rat), dist cur = some dcur →
      (L.dedup.filter (distBelow dist dcur)).length < m →
      ∃ res, walkPrev prev m cur [] = some res := by
  intro m
  induction m with
  | zero => intro cur dcur _ h; omega
  | succ mm ih =>
    intro cur dcur hdcur hcount
    cases hp : prev cur with
    | none => exact ⟨[], walkPrev_stop hp _ _⟩
    | some c =>
      obtain ⟨dn, dc, hdn, hdc, hlt⟩ := hlink cur c hp
      have hdn' : dn = dcur := by
        rw [hdcur] at hdn; injection hdn with h; exact h.symm
      subst hdn'
      have hmono : ∀ x, distBelow dist dc x = true → distBelow dist dn x = true := by
        intro x hx
        obtain ⟨dx, hdx, hxlt⟩ := distBelow_true hx
        simp only [distBelow, hdx, decide_eq_true_eq]
        linarith
      have hcL : c ∈ L.dedup := List.mem_dedup.2 (hinL c dc hdc)
      have hpc : distBelow dist dn c = true := by
        simp only [distBelow, hdc, decide_eq_true_eq]
        exact hlt
      have hqc : distBelow dist dc c = false := by
        simp only [distBelow, hdc, decide_eq_false_iff_not, decide_eq_true_eq]
        exact lt_irrefl dc
      have hstrict := filter_length_lt hmono hcL hpc hqc
      obtain ⟨res', hres'⟩ := ih c dc hdc (by omega)
      refine ⟨[cur] ++ res', ?_⟩
      have hstep : walkPrev prev (mm+1) cur [] = walkPrev prev mm c [cur] := by
        simp [walkPrev, hp]
      rw [hstep, walkPrev_acc prev mm c [cur], hres']
      rfl

/-- Backward-walk simplicity: along strictly decreasing predecessor links
the collected nodes are distinct and never include the source. -/
theorem walk_nodup {src : Node} {dist : Node → Option Rat}
    {prev : Node → Option Node}
    (hprevsrc : prev src = none)
    (hlink : ∀ n c, prev n = some c → ∃ dn dc,
      dist n = some dn ∧ dist c = some dc ∧ dc < dn) :
    ∀ (fuel : Nat) (cur : Node) (dcur : Rat) (res : List Node),
      dist cur = some dcur → walkPrev prev fuel cur [] = some res →
      res.Nodup ∧ src ∉ res ∧ ∀ y ∈ res, ∃ dy, dist y = some dy ∧ dy ≤ dcur := by
  intro fuel
  induction fuel with
  | zero =>
    intro cur dcur res hdcur hwalk
    cases hp : prev cur with
    | some p => simp [walkPrev, hp] at hwalk
    | none =>
      rw [walkPrev_stop hp] at hwalk
      injection hwalk with h
      subst h
      exact ⟨List.nodup_nil, by simp, by simp⟩
  | succ f ih =>
    intro cur dcur res hdcur hwalk
    cases hp : prev cur with
    | none =>
      rw [walkPrev_stop hp] at hwalk
      injection hwalk with h
      subst h
      exact ⟨List.nodup_nil, by simp, by simp⟩
    | some c =>
      have hstep : walkPrev prev (f+1) cur [] = walkPrev prev f c [cur] := by
        simp [walkPrev, hp]
      rw [hstep, walkPrev_acc prev f c [cur]] at hwalk
      cases hrec : walkPrev prev f c [] with
      | none => rw [hrec] at hwalk; exact Option.noConfusion hwalk
      | some res' =>
        rw [hrec] at hwalk
        injection hwalk with hwalk
        obtain ⟨dn, dc, hdn, hdc, hlt⟩ := hlink cur c hp
        have hdn' : dn = dcur := by
          rw [hdcur] at hdn; injection hdn with h; exact h.symm
        subst hdn'
        obtain ⟨hnd, hnsrc, hbound⟩ := ih c dc res' hdc hrec
        subst hwalk
        have hcurnotin : cur ∉ res' := by
          intro hmem
          obtain ⟨dy, hdy, hdyle⟩ := hbound cur hmem
          rw [hdcur] at hdy
          injection hdy with h
          subst h
          linarith
        refine ⟨?_, ?_, ?_⟩
        · simpa [List.nodup_cons] using ⟨hcurnotin, hnd⟩
        · intro hmem
          rcases List.mem_cons.1 hmem with h1 | h1
          · rw [h1] at hprevsrc
            rw [hp] at hprevsrc
            cases hprevsrc
          · exact hnsrc h1
        · intro y hy
          rcases List.mem_cons.1 hy with h1 | h1
          · subst h1
            exact ⟨dn, hdcur, le_refl _⟩
          · obtain ⟨dy, hdy, hdyle⟩ := hbound y h1
            exact ⟨dy, hdy, by linarith⟩

/-- When the heap has emptied, every reachable node has a recorded
distance. -/
theorem dinv_empty_complete {g : PyGraph} {src : Node} {L : List Node}
    {st : DState} (hinv : DInv g src L st) (hpq : st.pq = []) :
    ∀ n, Reach g src n → ∃ d, st.dist n = some d := by
  intro n hr
  induction hr with
  | refl => exact ⟨0, hinv.dist_src⟩
  | step hr hedge ih =>
    rename_i c n' w'
    obtain ⟨d, hd⟩ := ih
    rcases hinv.proc c d hd with h1 | ⟨_, hnbrs⟩
    · rw [hpq] at h1; exact absurd h1 (List.not_mem_nil _)
    · obtain ⟨dn, hdn, _⟩ := hnbrs (n', w') hedge
      exact ⟨dn, hdn⟩

/-- The loop invariant holds at the initial state of `dijkstra`. -/
theorem dinv_init {g : PyGraph} {src : Node} {L : List Node}
    (hsrcL : src ∈ L) :
    DInv g src L ⟨[(0, src)], Function.update (fun _ => none) src (some 0),
      fun _ => none⟩ := by
  have hupd : ∀ n d, Function.update (fun _ => none : Node → Option Rat) src
      (some 0) n = some d → n = src ∧ d = 0 := by
    intro n d hd
    by_cases hn : n = src
    · subst hn
      rw [Function.update_same] at hd
      injection hd with hd
      exact ⟨rfl, hd.symm⟩
    · rw [Function.update_noteq hn] at hd; cases hd
  refine
    { dist_src := by simp, dist_nonneg := ?_, dist_prev := ?_
      prev_src := rfl, link := ?_, pq_dist := ?_, proc := ?_
      reach := ?_, nodup := List.nodup_singleton _, inL := ?_ }
  · intro n d hd
    obtain ⟨hn, hd0⟩ := hupd n d hd
    subst hd0
    exact le_refl _
  · intro n d hd hn
    obtain ⟨hn', _⟩ := hupd n d hd
    exact absurd hn' hn
  · intro n c h; cases h
  · intro k m h
    rcases List.mem_singleton.1 h with h1
    have hk : k = 0 := congrArg Prod.fst h1
    have hmsrc : m = src := congrArg Prod.snd h1
    subst hk hmsrc
    exact ⟨0, by simp, le_refl _⟩
  · intro m dm hdm
    obtain ⟨hm, hd0⟩ := hupd m dm hdm
    subst hm hd0
    exact Or.inl (List.mem_singleton_self _)
  · intro n d hd
    obtain ⟨hn, _⟩ := hupd n d hd
    subst hn
    exact Reach.refl
  · intro n d hd
    obtain ⟨hn, _⟩ := hupd n d hd
    subst hn
    exact hsrcL

/-- Dijkstra, reachable case: for positive weights on a finitely closed
graph, some fuel makes the loop and walk finish, and the returned path runs
from source to destination with the returned cost equal to its edge-weight
sum. -/
theorem dijkstra_correct {g : PyGraph} {src dst : Node} {L : List Node}
    (hwp : WeightsPos g) (hcl : ClosedNodeList g src L) (hr : Reach g src dst) :
    ∃ fuel p de, dijkstra g src dst fuel = some (p, some de) ∧
      IsPathCost g p de ∧ p.head? = some src ∧ p.getLast? = some dst := by
  have hw : WeightsNonneg g := fun a q hq => le_of_lt (hwp a q hq)
  have hinv0 := dinv_init (g := g) (L := L) hcl.1
  set st0 : DState := ⟨[(0, src)], Function.update (fun _ => none) src (some 0),
    fun _ => none⟩ with hst0
  obtain ⟨fuel₁, st', hrun⟩ := runD_total dst hw hcl
    ((L.dedup.filter (unproc st0)).length + 1) (st0.pq.length + 1) st0 hinv0
    (Nat.lt_succ_self _) (Nat.lt_succ_self _)
  obtain ⟨PQ, hinvF, hexit⟩ := runD_exit hw hcl fuel₁ st0 st' hinv0 hrun
  have hde0 : ∃ de, st'.dist dst = some de := by
    rcases hexit with ⟨hPQ, _⟩ | ⟨k, hmin, _⟩
    · exact dinv_empty_complete hinvF hPQ dst hr
    · obtain ⟨de, hde, _⟩ := hinvF.pq_dist k dst (pqMinD_mem hmin)
      exact ⟨de, hde⟩
  obtain ⟨de, hde⟩ := hde0
  have hlink : ∀ n c, st'.prev n = some c → ∃ w dn dc,
      (n, w) ∈ getNeighbors g c ∧ st'.dist n = some dn ∧ st'.dist c = some dc ∧
      dc + w ≤ dn ∧ (dn = dc + w ∨ de ≤ dc) := by
    intro n c hp
    obtain ⟨w, dn, dc, hedge, hdn, hdc, hle, hdisj⟩ := hinvF.link n c hp
    refine ⟨w, dn, dc, hedge, hdn, hdc, hle, ?_⟩
    rcases hdisj with h1 | h1
    · exact Or.inl h1
    · right
      rcases hexit with ⟨hPQ, _⟩ | ⟨k, hmin, _⟩
      · rw [hPQ] at h1
        exact absurd h1 (List.not_mem_nil _)
      · obtain ⟨de', hde', hdek⟩ := hinvF.pq_dist k dst (pqMinD_mem hmin)
        have hdee : de' = de := by
          rw [hde] at hde'; injection hde' with h2; exact h2.symm
        have hkdc : k ≤ dc := pqMinD_le hmin (dc, c) h1
        linarith
  have hlink' : ∀ n c, st'.prev n = some c → ∃ dn dc,
      st'.dist n = some dn ∧ st'.dist c = some dc ∧ dc < dn := by
    intro n c hp
    obtain ⟨w, dn, dc, hedge, hdn, hdc, hle, _⟩ := hinvF.link n c hp
    refine ⟨dn, dc, hdn, hdc, ?_⟩
    have := hwp c (n, w) hedge
    linarith
  obtain ⟨res, hwres⟩ := walk_total hlink' hinvF.inL
    ((L.dedup.filter (distBelow st'.dist de)).length + 1) dst de hde
    (Nat.lt_succ_self _)
  obtain ⟨hpath, hlast⟩ := walk_path hw hinvF.dist_src hinvF.dist_prev hlink
    ((L.dedup.filter (distBelow st'.dist de)).length + 1) dst de res hde
    (le_refl de) hwres
  refine ⟨max fuel₁ ((L.dedup.filter (distBelow st'.dist de)).length + 1),
    (res ++ [src]).reverse, de, ?_, hpath, ?_, hlast⟩
  · have hle1 : fuel₁ ≤ max fuel₁ ((L.dedup.filter (distBelow st'.dist de)).length + 1) :=
      Nat.le_max_left _ _
    have hle2 : (L.dedup.filter (distBelow st'.dist de)).length + 1 ≤
        max fuel₁ ((L.dedup.filter (distBelow st'.dist de)).length + 1) :=
      Nat.le_max_right _ _
    have hrunF := runD_mono hrun hle1
    have hwalkF := walkPrev_mono hwres hle2
    simp only [dijkstra]
    rw [← hst0]
    simp only [hrunF, hwalkF, hde]
  · simp

/-- Dijkstra, unreachable case: the loop finishes, the destination has no
recorded distance or predecessor, and the result degenerates to
`([src], +infinity)`. -/
theorem dijkstra_unreach {g : PyGraph} {src dst : Node} {L : List Node}
    (hw : WeightsNonneg g) (hcl : ClosedNodeList g src L)
    (hnr : ¬ Reach g src dst) :
    ∃ fuel, dijkstra g src dst fuel = some ([src], none) := by
  have hinv0 := dinv_init (g := g) (L := L) hcl.1
  set st0 : DState := ⟨[(0, src)], Function.update (fun _ => none) src (some 0),
    fun _ => none⟩ with hst0
  obtain ⟨fuel₁, st', hrun⟩ := runD_total dst hw hcl
    ((L.dedup.filter (unproc st0)).length + 1) (st0.pq.length + 1) st0 hinv0
    (Nat.lt_succ_self _) (Nat.lt_succ_self _)
  obtain ⟨PQ, hinvF, hexit⟩ := runD_exit hw hcl fuel₁ st0 st' hinv0 hrun
  have hdist : st'.dist dst = none := by
    cases hd : st'.dist dst with
    | none => rfl
    | some d => exact absurd (hinvF.reach dst d hd) hnr
  have hprev : st'.prev dst = none := by
    cases hp : st'.prev dst with
    | none => rfl
    | some c =>
      obtain ⟨w, dn, dc, _, hdn, _, _, _⟩ := hinvF.link dst c hp
      rw [hdist] at hdn; cases hdn
  refine ⟨fuel₁, ?_⟩
  simp only [dijkstra]
  rw [← hst0]
  simp only [hrun, walkPrev_stop hprev, hdist]
  rfl

/-- Any path returned by `dijkstra` on a positive-weight, finitely closed
graph is simple, and the backward walk from any finished loop state
terminates. -/
theorem dijkstra_simple {g : PyGraph} {src dst : Node} {L : List Node}
    (hwp : WeightsPos g) (hcl : ClosedNodeList g src L) :
    (∀ fuel st', runD g dst fuel ⟨[(0, src)],
        Function.update (fun _ => none) src (some 0), fun _ => none⟩ = some st' →
      ∃ wf res, walkPrev st'.prev wf dst [] = some res) ∧
    (∀ fuel p cost, dijkstra g src dst fuel = some (p, cost) → p.Nodup) := by
  have hw : WeightsNonneg g := fun a q hq => le_of_lt (hwp a q hq)
  have hinv0 := dinv_init (g := g) (L := L) hcl.1
  set st0 : DState := ⟨[(0, src)], Function.update (fun _ => none) src (some 0),
    fun _ => none⟩ with hst0
  have hkey : ∀ fuel st', runD g dst fuel st0 = some st' →
      (∀ n c, st'.prev n = some c → ∃ dn dc,
        st'.dist n = some dn ∧ st'.dist c = some dc ∧ dc < dn) ∧
      st'.prev src = none ∧ (∀ n d, st'.dist n = some d → n ∈ L) := by
    intro fuel st' hrun
    obtain ⟨PQ, hinvF, _⟩ := runD_exit hw hcl fuel st0 st' hinv0 hrun
    refine ⟨?_, hinvF.prev_src, hinvF.inL⟩
    intro n c hp
    obtain ⟨w, dn, dc, hedge, hdn, hdc, hle, _⟩ := hinvF.link n c hp
    refine ⟨dn, dc, hdn, hdc, ?_⟩
    have := hwp c (n, w) hedge
    linarith
  constructor
  · intro fuel st' hrun
    obtain ⟨hlink', hprevsrc, hinL⟩ := hkey fuel st' hrun
    cases hp : st'.prev dst with
    | none => exact ⟨0, [], walkPrev_stop hp _ _⟩
    | some c =>
      obtain ⟨dn, dc, hdn, hdc, _⟩ := hlink' dst c hp
      obtain ⟨res, hres⟩ := walk_total hlink' hinL
        ((L.dedup.filter (distBelow st'.dist dn)).length + 1) dst dn hdn
        (Nat.lt_succ_self _)
      exact ⟨_, res, hres⟩
  · intro fuel p cost h
    simp only [dijkstra] at h
    rw [← hst0] at h
    cases hrun : runD g dst fuel st0 with
    | none => rw [hrun] at h; cases h
    | some st' =>
      rw [hrun] at h
      dsimp only at h
      cases hwalk : walkPrev st'.prev fuel dst [] with
      | none => rw [hwalk] at h; cases h
      | some res =>
        rw [hwalk] at h
        dsimp only at h
        injection h with h
        have hp : p = (res ++ [src]).reverse := (congrArg Prod.fst h).symm
        subst hp
        obtain ⟨hlink', hprevsrc, hinL⟩ := hkey fuel st' hrun
        cases hpd : st'.prev dst with
        | none =>
          have hres : res = [] := by
            rw [walkPrev_stop hpd] at hwalk
            injection hwalk with h2
            exact h2.symm
          subst hres
          simp
        | some c =>
          obtain ⟨dn, dc, hdn, hdc, _⟩ := hlink' dst c hpd
          obtain ⟨hnd, hnsrc, _⟩ := walk_nodup hprevsrc hlink' fuel dst dn res hdn hwalk
          rw [List.nodup_reverse, List.nodup_append]
          refine ⟨hnd, List.nodup_singleton _, ?_⟩
          intro a ha hb
          rw [List.mem_singleton.1 hb] at ha
          exact hnsrc ha

/-- Forgetting the redundant `f` component of an A* heap entry. -/
def projA (t : Rat × Rat × Node) : Rat × Node := (t.2.1, t.2.2)

/-- The A* heap minimum is `none` exactly on the empty heap. -/
theorem pqMinA_eq_none {l : List (Rat × Rat × Node)} : pqMinA l = none ↔ l = [] := by
  cases l with
  | nil => simp [pqMinA]
  | cons x xs =>
    simp only [pqMinA]
    cases pqMinA xs <;> simp <;> split <;> simp

/-- The A* heap minimum is an element of the heap. -/
theorem pqMinA_mem : ∀ {l : List (Rat × Rat × Node)} {m}, pqMinA l = some m → m ∈ l := by
  intro l
  induction l with
  | nil => intro m h; simp [pqMinA] at h
  | cons x xs ih =>
    intro m h
    simp only [pqMinA] at h
    cases hx : pqMinA xs with
    | none =>
      rw [hx] at h
      obtain rfl : x = m := by simpa using h
      exact List.mem_cons_self _ _
    | some m' =>
      rw [hx] at h
      dsimp only at h
      split at h
      · obtain rfl : x = m := by simpa using h
        exact List.mem_cons_self _ _
      · obtain rfl : m' = m := by simpa using h
        exact List.mem_cons_of_mem _ (ih hx)

/-- With a zero heuristic every heap entry satisfies `f = g`, and popping
the `(f, g, node)` minimum is popping the `(g, node)` minimum. -/
theorem pqMinA_proj : ∀ {l : List (Rat × Rat × Node)}, (∀ t ∈ l, t.1 = t.2.1) →
    pqMinD (l.map projA) = (pqMinA l).map projA := by
  intro l
  induction l with
  | nil => intro _; rfl
  | cons x xs ih =>
    intro hall
    have hx := hall x (List.mem_cons_self _ _)
    have hxs : ∀ t ∈ xs, t.1 = t.2.1 := fun t ht => hall t (List.mem_cons_of_mem _ ht)
    simp only [List.map_cons, pqMinD, pqMinA, ih hxs]
    cases hm : pqMinA xs with
    | none => rfl
    | some m =>
      have hmm : m.1 = m.2.1 := hxs m (pqMinA_mem hm)
      simp only [Option.map_some']
      by_cases hc : (projA x).1 < (projA m).1 ∨
          ((projA x).1 = (projA m).1 ∧ (projA x).2 ≤ (projA m).2)
      · rw [if_pos hc]
        have hcA : x.1 < m.1 ∨ (x.1 = m.1 ∧
            (x.2.1 < m.2.1 ∨ (x.2.1 = m.2.1 ∧ x.2.2 ≤ m.2.2))) := by
          rw [hx, hmm]
          simp only [projA] at hc
          rcases hc with h1 | ⟨h1, h2⟩
          · exact Or.inl h1
          · exact Or.inr ⟨h1, Or.inr ⟨h1, h2⟩⟩
        rw [if_pos hcA]
        rfl
      · rw [if_neg hc]
        have hcA : ¬(x.1 < m.1 ∨ (x.1 = m.1 ∧
            (x.2.1 < m.2.1 ∨ (x.2.1 = m.2.1 ∧ x.2.2 ≤ m.2.2)))) := by
          rw [hx, hmm]
          simp only [projA] at hc
          push_neg at hc ⊢
          exact ⟨hc.1, fun h1 => ⟨hc.1, fun h2 => hc.2 h2⟩⟩
        rw [if_neg hcA]
        rfl

/-- Erasing the popped entry commutes with forgetting the `f` component. -/
theorem erase_map_projA : ∀ (l : List (Rat × Rat × Node)) (t : Rat × Rat × Node),
    (∀ u ∈ l, u.1 = u.2.1) → t.1 = t.2.1 →
    (l.map projA).erase (projA t) = (l.erase t).map projA := by
  intro l
  induction l with
  | nil => intro t _ _; rfl
  | cons u us ih =>
    intro t hall ht
    have hu := hall u (List.mem_cons_self _ _)
    have hus : ∀ v ∈ us, v.1 = v.2.1 := fun v hv => hall v (List.mem_cons_of_mem _ hv)
    by_cases heq : u = t
    · subst heq
      simp only [List.map_cons, List.erase_cons_head]
    · have hpne : projA u ≠ projA t := by
        intro hpe
        apply heq
        have h1 : u.2.1 = t.2.1 := congrArg Prod.fst hpe
        have h2 : u.2.2 = t.2.2 := congrArg Prod.snd hpe
        have h3 : u.1 = t.1 := by rw [hu, ht, h1]
        exact Prod.ext h3 (Prod.ext h1 h2)
      simp only [List.map_cons, List.erase_cons, beq_iff_eq, if_neg heq, if_neg hpne]
      rw [ih t hus ht]

/-- The zero-heuristic A* relaxation is the Dijkstra relaxation after
forgetting `f_score`. -/
theorem relaxA_proj (cg : Rat) (c : Node) :
    ∀ (todo : List (Node × Rat)) (asn : AState) (ds : DState),
    ds.pq = asn.pq.map projA → (∀ t ∈ asn.pq, t.1 = t.2.1) →
    ds.dist = asn.gsc → ds.prev = asn.prev →
    (relaxD cg c todo ds).pq = (relaxA cg c todo asn).pq.map projA ∧
    (∀ t ∈ (relaxA cg c todo asn).pq, t.1 = t.2.1) ∧
    (relaxD cg c todo ds).dist = (relaxA cg c todo asn).gsc ∧
    (relaxD cg c todo ds).prev = (relaxA cg c todo asn).prev := by
  intro todo
  induction todo with
  | nil => intro asn ds h1 h2 h3 h4; exact ⟨h1, h2, h3, h4⟩
  | cons p rest ih =>
    obtain ⟨n, w⟩ := p
    intro asn ds h1 h2 h3 h4
    simp only [relaxD, relaxA]
    rw [h3]
    by_cases himp : improves (cg + w) (asn.gsc n) = true
    · rw [if_pos himp, if_pos himp]
      apply ih
      · simp only [h1, List.map_append, List.map_cons, List.map_nil, projA]
      · intro t ht
        rcases List.mem_append.1 ht with h5 | h5
        · exact h2 t h5
        · rw [List.mem_singleton.1 h5]
      · rfl
      · rw [h4]
    · rw [if_neg himp, if_neg himp]
      exact ih asn ds h1 h2 h3 h4

/-- The zero-heuristic A* main loop simulates the Dijkstra main loop step
for step; both finish together with equal predecessor and distance maps. -/
theorem runA_proj (g : PyGraph) (dst : Node) :
    ∀ (fuel : Nat) (asn : AState) (ds : DState),
    ds.pq = asn.pq.map projA → (∀ t ∈ asn.pq, t.1 = t.2.1) →
    ds.dist = asn.gsc → ds.prev = asn.prev →
    (runA g dst fuel asn).map (fun s => (s.prev, s.gsc)) =
      (runD g dst fuel ds).map (fun s => (s.prev, s.dist)) := by
  intro fuel
  induction fuel with
  | zero => intro asn ds _ _ _ _; rfl
  | succ f ih =>
    intro asn ds h1 h2 h3 h4
    simp only [runA, runD]
    rw [h1, pqMinA_proj h2]
    cases hm : pqMinA asn.pq with
    | none => simp [h3, h4]
    | some t =>
      obtain ⟨tf, tg, tn⟩ := t
      have htfact : tf = tg := h2 (tf, tg, tn) (pqMinA_mem hm)
      simp only [Option.map_some', projA]
      by_cases hc : tn = dst
      · rw [if_pos hc, if_pos hc]
        simp [h3, h4]
      · rw [if_neg hc, if_neg hc]
        rw [h3]
        have herase : (asn.pq.map projA).erase (tg, tn) =
            (asn.pq.erase (tf, tg, tn)).map projA := by
          have := erase_map_projA asn.pq (tf, tg, tn) h2 htfact
          simpa [projA] using this
        by_cases hs : staleKey (asn.gsc tn) tg = true
        · rw [if_pos hs, if_pos hs]
          apply ih
          · exact herase
          · intro u hu
            exact h2 u (List.mem_of_mem_erase hu)
          · rfl
          · exact h4
        · rw [if_neg hs, if_neg hs]
          have hrel := relaxA_proj tg tn (getNeighbors g tn)
            ⟨asn.pq.erase (tf, tg, tn), asn.gsc, asn.fsc, asn.prev⟩
            ⟨(asn.pq.map projA).erase (tg, tn), asn.gsc, ds.prev⟩
            herase (fun u hu => h2 u (List.mem_of_mem_erase hu)) rfl h4
          exact ih _ _ hrel.1 hrel.2.1 hrel.2.2.1 hrel.2.2.2

/-- With the hard-coded zero heuristic of the source, `a_star` computes
exactly what `dijkstra` computes, at every fuel. -/
theorem aStar_eq_dijkstra (g : PyGraph) (src dst : Node) (fuel : Nat) :
    aStar g src dst fuel = dijkstra g src dst fuel := by
  have h := runA_proj g dst fuel
    ⟨[(0, 0, src)], Function.update (fun _ => none) src (some 0),
      Function.update (fun _ => none) src (some 0), fun _ => none⟩
    ⟨[(0, src)], Function.update (fun _ => none) src (some 0), fun _ => none⟩
    (by simp [projA]) (by intro t ht; rw [List.mem_singleton.1 ht]) rfl rfl
  simp only [aStar, dijkstra]
  cases hA : runA g dst fuel ⟨[(0, 0, src)],
      Function.update (fun _ => none) src (some 0),
      Function.update (fun _ => none) src (some 0), fun _ => none⟩ with
  | none =>
    rw [hA] at h
    cases hD : runD g dst fuel ⟨[(0, src)],
        Function.update (fun _ => none) src (some 0), fun _ => none⟩ with
    | none => rfl
    | some ds' => rw [hD] at h; cases h
  | some as' =>
    rw [hA] at h
    cases hD : runD g dst fuel ⟨[(0, src)],
        Function.update (fun _ => none) src (some 0), fun _ => none⟩ with
    | none => rw [hD] at h; cases h
    | some ds' =>
      rw [hD] at h
      injection h with h
      have hprev : as'.prev = ds'.prev := congrArg Prod.fst h
      have hgsc : as'.gsc = ds'.dist := congrArg Prod.snd h
      dsimp only
      rw [hprev, hgsc]

/-- The empty graph state has a (vacuously) symmetric adjacency. -/
theorem symmetric_init : SymmetricAdj graphInit := by
  intro a b w h
  simp [graphInit, getNeighbors] at h

/-- `add_edge` preserves adjacency symmetry. -/
theorem symmetric_addEdge {g : PyGraph} (h : SymmetricAdj g) (a b : Node) (w : Rat) :
    SymmetricAdj (addEdge g a b w) := by
  intro x y wy hxy
  rw [getNeighbors_addEdge] at hxy ⊢
  simp only [List.mem_append] at hxy ⊢
  rcases hxy with (h1 | h1) | h1
  · exact Or.inl (Or.inl (h x y wy h1))
  · by_cases hx : x = a
    · rw [if_pos hx] at h1
      rcases List.mem_singleton.1 h1 with h2
      have hyb : y = b := congrArg Prod.fst h2
      have hwy : wy = w := congrArg Prod.snd h2
      subst hx hyb hwy
      right
      rw [if_pos rfl]
      exact List.mem_singleton_self _
    · rw [if_neg hx] at h1
      exact absurd h1 (List.not_mem_nil _)
  · by_cases hx : x = b
    · rw [if_pos hx] at h1
      rcases List.mem_singleton.1 h1 with h2
      have hya : y = a := congrArg Prod.fst h2
      have hwy : wy = w := congrArg Prod.snd h2
      subst hx hya hwy
      left; right
      rw [if_pos rfl]
      exact List.mem_singleton_self _
    · rw [if_neg hx] at h1
      exact absurd h1 (List.not_mem_nil _)

/-- `add_node` preserves adjacency symmetry when the inserted id has no
recorded incident edge (in particular for fresh ids). -/
theorem symmetric_addNode {g : PyGraph} (h : SymmetricAdj g) {id : Node}
    (hno : ∀ b w, (id, w) ∉ getNeighbors g b) (lat lon : Rat) :
    SymmetricAdj (addNode g id lat lon) := by
  intro x y wy hxy
  rw [getNeighbors_addNode] at hxy ⊢
  by_cases hx : x = id
  · rw [if_pos hx] at hxy
    exact absurd hxy (List.not_mem_nil _)
  · rw [if_neg hx] at hxy
    by_cases hy : y = id
    · subst hy
      exact absurd hxy (hno x wy)
    · rw [if_neg hy]
      exact h x y wy hxy

/-- A node id never mentioned by any construction operation keeps an empty
neighbor list. -/
theorem getNeighbors_untouched : ∀ (ops : List GraphOp) (g : PyGraph) (id : Node),
    getNeighbors g id = [] → (∀ op ∈ ops, id ∉ opMentions op) →
    getNeighbors (ops.foldl applyOp g) id = [] := by
  intro ops
  induction ops with
  | nil => intro g id h _; exact h
  | cons op rest ih =>
    intro g id h hops
    simp only [List.foldl_cons]
    have hop := hops op (List.mem_cons_self _ _)
    apply ih
    · cases op with
      | node i la lo =>
        have hne : id ≠ i := by
          intro hc; subst hc
          exact hop (by simp [opMentions])
        simp only [applyOp]
        rw [getNeighbors_addNode, if_neg hne]
        exact h
      | edge a b w =>
        have hna : id ≠ a := by
          intro hc; subst hc
          exact hop (by simp [opMentions])
        have hnb : id ≠ b := by
          intro hc; subst hc
          exact hop (by simp [opMentions])
        simp only [applyOp]
        rw [getNeighbors_addEdge, if_neg hna, if_neg hnb, h]
        rfl
    · intro op' hop'
      exact hops op' (List.mem_cons_of_mem _ hop')

/-- On the two-isolated-node graph, `a_star(1, 2)` returns the degenerate
unreachable result whenever the loop has fuel to finish. -/
theorem aStar_isoGraph : ∀ f : Nat, aStar isoGraph 1 2 (f + 2) = some ([1], none) :=
  fun _ => rfl

/-- The `while unvisited:` loop of `greedy_tsp` never finishes on the
two-isolated-node graph with stop 2 unvisited: no fuel suffices. -/
theorem greedyLoop_isoGraph : ∀ (lFuel aFuel : Nat),
    greedyLoop isoGraph aFuel lFuel [2] 1 [1] 0 = none := by
  intro lFuel
  induction lFuel with
  | zero => intro aFuel; rfl
  | succ lf ih =>
    intro aFuel
    cases aFuel with
    | zero => rfl
    | succ a1 =>
      cases a1 with
      | zero => rfl
      | succ f =>
        have hstep : greedyLoop isoGraph (f + 2) (lf + 1) [2] 1 [1] 0 =
            greedyLoop isoGraph (f + 2) lf [2] 1 [1] 0 := rfl
        rw [hstep]
        exact ih (f + 2)

/-- The completed future of index `i` is looked up by its submission
index in the completion log, whatever the completion order. -/
theorem find_completionLog (g : PyGraph) (aFuel : Nat)
    (requests : List (Node × Node)) :
    ∀ (sched : List Nat) (i : Nat), i ∈ sched →
      (completionLog g aFuel requests sched).find? (fun p => p.1 == i) =
        some (i, futureValue g aFuel requests i) := by
  intro sched
  induction sched with
  | nil => intro i h; simp at h
  | cons j js ih =>
    intro i hi
    simp only [completionLog, List.map_cons]
    by_cases hj : j = i
    · subst hj
      rw [List.find?_cons_of_pos]
      simp
    · rw [List.find?_cons_of_neg]
      · rcases List.mem_cons.1 hi with h1 | h1
        · exact absurd h1.symm hj
        · exact ih i h1
      · simp [hj]

/-- Batch dispatch equals the sequential map of `a_star` calls, in
submission order, for every completion schedule that runs each future
exactly once. -/
theorem simpleParallel_spec (g : PyGraph) (aFuel : Nat)
    (requests : List (Node × Node)) (sched : List Nat)
    (hperm : sched.Perm (List.range requests.length)) :
    simpleParallel g aFuel requests sched =
      requests.map (fun r => aStar g r.1 r.2 aFuel) := by
  apply List.ext_getElem
  · simp [simpleParallel]
  · intro i h1 h2
    have hiN : i < requests.length := by
      simpa [simpleParallel] using h1
    have hisched : i ∈ sched := hperm.mem_iff.2 (List.mem_range.2 hiN)
    simp only [simpleParallel]
    rw [List.getElem_map, List.getElem_range,
      find_completionLog g aFuel requests sched i hisched]
    simp only [futureValue]
    rw [List.getElem_map]
    rw [show requests.get? i = some requests[i] from List.get?_eq_get hiN]
    rfl

/-! Claim theorems. -/

/-- C1: for every graph of the specification's data model (positive
travel-time weights, finitely many nodes) and every pair with the
destination reachable from the source, both `dijkstra` and `a_star` return
(for sufficient fuel) the same path, whose first element is the source,
whose last element is the destination, and whose consecutive recorded edge
weights sum to the returned cost. -/
theorem claim_C1 (g : PyGraph) (src dst : Node) (L : List Node)
    (hwp : WeightsPos g) (hcl : ClosedNodeList g src L) (hr : Reach g src dst) :
    ∃ fuel p de, dijkstra g src dst fuel = some (p, some de) ∧
      aStar g src dst fuel = some (p, some de) ∧
      p.head? = some src ∧ p.getLast? = some dst ∧ IsPathCost g p de := by
  obtain ⟨fuel, p, de, h1, h2, h3, h4⟩ := dijkstra_correct hwp hcl hr
  exact ⟨fuel, p, de, h1, by rw [aStar_eq_dijkstra]; exact h1, h3, h4, h2⟩

/-- C1 witness: the concrete line graph 0-1-2. -/
theorem claim_C1_witness :
    ∃ fuel p de, dijkstra lineGraph 0 2 fuel = some (p, some de) ∧
      aStar lineGraph 0 2 fuel = some (p, some de) ∧
      p.head? = some 0 ∧ p.getLast? = some 2 ∧ IsPathCost lineGraph p de := by
  apply claim_C1 lineGraph 0 2 [0, 1, 2]
  · intro a p hp
    simp only [getNeighbors, lineGraph] at hp
    split_ifs at hp <;> simp at hp <;>
      first
        | (rcases hp with rfl; decide)
        | (rcases hp with rfl | rfl <;> decide)
  · refine ⟨by decide, ?_⟩
    intro c hc p hp
    fin_cases hc <;> simp only [getNeighbors, lineGraph] at hp <;> simp at hp <;>
      first
        | (rcases hp with rfl; decide)
        | (rcases hp with rfl | rfl <;> decide)
  · exact Reach.step (Reach.step Reach.refl
      (show ((1 : Node), (5 : Rat)) ∈ getNeighbors lineGraph 0 by decide))
      (show ((2 : Node), (3 : Rat)) ∈ getNeighbors lineGraph 1 by decide)

/-- C2: on a nonnegative-weight, finitely closed graph, for a destination
distinct from the source and unreachable from it (including ids never added
to the graph), both algorithms finish and return the single-element path
`[src]` with cost `+infinity` (`none`), raising nothing. -/
theorem claim_C2 (g : PyGraph) (src dst : Node) (L : List Node)
    (hw : WeightsNonneg g) (hcl : ClosedNodeList g src L)
    (hne : src ≠ dst) (hnr : ¬ Reach g src dst) :
    ∃ fuel, dijkstra g src dst fuel = some ([src], none) ∧
      aStar g src dst fuel = some ([src], none) := by
  obtain ⟨fuel, h⟩ := dijkstra_unreach hw hcl hnr
  exact ⟨fuel, h, by rw [aStar_eq_dijkstra]; exact h⟩

/-- C2 witness: node 3 was never added to the line graph. -/
theorem claim_C2_witness :
    ∃ fuel, dijkstra lineGraph 0 3 fuel = some ([0], none) ∧
      aStar lineGraph 0 3 fuel = some ([0], none) := by
  apply claim_C2 lineGraph 0 3 [0, 1, 2]
  · intro a p hp
    simp only [getNeighbors, lineGraph] at hp
    split_ifs at hp <;> simp at hp <;>
      first
        | (rcases hp with rfl; decide)
        | (rcases hp with rfl | rfl <;> decide)
  · refine ⟨by decide, ?_⟩
    intro c hc p hp
    fin_cases hc <;> simp only [getNeighbors, lineGraph] at hp <;> simp at hp <;>
      first
        | (rcases hp with rfl; decide)
        | (rcases hp with rfl | rfl <;> decide)
  · decide
  · intro hr
    have hmem : ∀ n, Reach lineGraph 0 n → n ∈ [0, 1, 2] := by
      intro n h
      induction h with
      | refl => decide
      | step hr' he ih =>
        rename_i c n' w'
        fin_cases ih <;> simp only [getNeighbors, lineGraph] at he <;> simp at he <;>
          first
            | (rcases he with rfl; decide)
            | (rcases he with ⟨rfl, _⟩ | ⟨rfl, _⟩ <;> decide)
    have := hmem 3 hr
    simp at this

/-- C3: with the source's zero heuristic, `a_star` computes exactly what
`dijkstra` computes at every fuel; in particular on a positive-weight,
finitely closed graph with a reachable destination both finish and return
equal costs. -/
theorem claim_C3 (g : PyGraph) (a b : Node) (L : List Node)
    (hwp : WeightsPos g) (hcl : ClosedNodeList g a L) (hr : Reach g a b) :
    (∀ fuel, aStar g a b fuel = dijkstra g a b fuel) ∧
    ∃ fuel pd cd pa ca, dijkstra g a b fuel = some (pd, cd) ∧
      aStar g a b fuel = some (pa, ca) ∧ ca = cd := by
  refine ⟨fun fuel => aStar_eq_dijkstra g a b fuel, ?_⟩
  obtain ⟨fuel, p, de, h1, _, _, _⟩ := dijkstra_correct hwp hcl hr
  exact ⟨fuel, p, some de, p, some de, h1, by rw [aStar_eq_dijkstra]; exact h1, rfl⟩

/-- C3 witness: the concrete line graph 0-1-2. -/
theorem claim_C3_witness :
    (∀ fuel, aStar lineGraph 0 2 fuel = dijkstra lineGraph 0 2 fuel) ∧
    ∃ fuel pd cd pa ca, dijkstra lineGraph 0 2 fuel = some (pd, cd) ∧
      aStar lineGraph 0 2 fuel = some (pa, ca) ∧ ca = cd := by
  apply claim_C3 lineGraph 0 2 [0, 1, 2]
  · intro a p hp
    simp only [getNeighbors, lineGraph] at hp
    split_ifs at hp <;> simp at hp <;>
      first
        | (rcases hp with rfl; decide)
        | (rcases hp with rfl | rfl <;> decide)
  · refine ⟨by decide, ?_⟩
    intro c hc p hp
    fin_cases hc <;> simp only [getNeighbors, lineGraph] at hp <;> simp at hp <;>
      first
        | (rcases hp with rfl; decide)
        | (rcases hp with rfl | rfl <;> decide)
  · exact Reach.step (Reach.step Reach.refl
      (show ((1 : Node), (5 : Rat)) ∈ getNeighbors lineGraph 0 by decide))
      (show ((2 : Node), (3 : Rat)) ∈ getNeighbors lineGraph 1 by decide)

/-- C10: on a positive-weight, finitely closed graph the backward
predecessor walk terminates from any finished loop state of either
algorithm, and every returned path is simple (no repeated node ids). -/
theorem claim_C10 (g : PyGraph) (src dst : Node) (L : List Node)
    (hwp : WeightsPos g) (hcl : ClosedNodeList g src L) :
    (∀ fuel st', runD g dst fuel ⟨[(0, src)],
        Function.update (fun _ => none) src (some 0), fun _ => none⟩ = some st' →
      ∃ wf res, walkPrev st'.prev wf dst [] = some res) ∧
    (∀ fuel st', runA g dst fuel ⟨[(0, 0, src)],
        Function.update (fun _ => none) src (some 0),
        Function.update (fun _ => none) src (some 0), fun _ => none⟩ = some st' →
      ∃ wf res, walkPrev st'.prev wf dst [] = some res) ∧
    (∀ fuel p cost, dijkstra g src dst fuel = some (p, cost) → p.Nodup) ∧
    (∀ fuel p cost, aStar g src dst fuel = some (p, cost) → p.Nodup) := by
  obtain ⟨hwalkD, hnodupD⟩ := dijkstra_simple hwp hcl
  refine ⟨hwalkD, ?_, hnodupD, ?_⟩
  · intro fuel st' hA
    have h := runA_proj g dst fuel
      ⟨[(0, 0, src)], Function.update (fun _ => none) src (some 0),
        Function.update (fun _ => none) src (some 0), fun _ => none⟩
      ⟨[(0, src)], Function.update (fun _ => none) src (some 0), fun _ => none⟩
      (by simp [projA]) (by intro t ht; rw [List.mem_singleton.1 ht]) rfl rfl
    rw [hA] at h
    cases hD : runD g dst fuel ⟨[(0, src)],
        Function.update (fun _ => none) src (some 0), fun _ => none⟩ with
    | none => rw [hD] at h; cases h
    | some ds' =>
      rw [hD] at h
      injection h with h
      have hprev : st'.prev = ds'.prev := congrArg Prod.fst h
      rw [hprev]
      exact hwalkD fuel ds' hD
  · intro fuel p cost h
    exact hnodupD fuel p cost (by rw [← aStar_eq_dijkstra]; exact h)

/-- C10 witness: the concrete line graph 0-1-2. -/
theorem claim_C10_witness :
    (∀ fuel st', runD lineGraph 2 fuel ⟨[(0, 0)],
        Function.update (fun _ => none) 0 (some 0), fun _ => none⟩ = some st' →
      ∃ wf res, walkPrev st'.prev wf 2 [] = some res) ∧
    (∀ fuel st', runA lineGraph 2 fuel ⟨[(0, 0, 0)],
        Function.update (fun _ => none) 0 (some 0),
        Function.update (fun _ => none) 0 (some 0), fun _ => none⟩ = some st' →
      ∃ wf res, walkPrev st'.prev wf 2 [] = some res) ∧
    (∀ fuel p cost, dijkstra lineGraph 0 2 fuel = some (p, cost) → p.Nodup) ∧
    (∀ fuel p cost, aStar lineGraph 0 2 fuel = some (p, cost) → p.Nodup) := by
  apply claim_C10 lineGraph 0 2 [0, 1, 2]
  · intro a p hp
    simp only [getNeighbors, lineGraph] at hp
    split_ifs at hp <;> simp at hp <;>
      first
        | (rcases hp with rfl; decide)
        | (rcases hp with rfl | rfl <;> decide)
  · refine ⟨by decide, ?_⟩
    intro c hc p hp
    fin_cases hc <;> simp only [getNeighbors, lineGraph] at hp <;> simp at hp <;>
      first
        | (rcases hp with rfl; decide)
        | (rcases hp with rfl | rfl <;> decide)

/-- C4 counterexample: re-inserting node 1 after the edge 1-2 was added
resets `adjacency[1]` but leaves `(1, 5)` inside `adjacency[2]`, so the
symmetry invariant is not preserved by `add_node` re-insertion. -/
theorem claim_C4_cex :
    ¬ SymmetricAdj (applyOps [.node 1 0 0, .node 2 0 0, .edge 1 2 5, .node 1 0 0]) := by
  intro h
  have h1 : ((1 : Node), (5 : Rat)) ∈
      getNeighbors (applyOps [.node 1 0 0, .node 2 0 0, .edge 1 2 5, .node 1 0 0]) 2 := by
    decide
  have h2 := h 2 1 5 h1
  revert h2
  decide

/-- C4 (amended): the adjacency is symmetric initially, `add_edge` always
preserves symmetry, and `add_node` preserves it provided the inserted id has
no recorded incident edge — re-insertion of a node with incident edges is
excluded. -/
theorem claim_C4 :
    SymmetricAdj graphInit ∧
    (∀ g a b w, SymmetricAdj g → SymmetricAdj (addEdge g a b w)) ∧
    (∀ g id lat lon, SymmetricAdj g → (∀ b w, (id, w) ∉ getNeighbors g b) →
      SymmetricAdj (addNode g id lat lon)) :=
  ⟨symmetric_init, fun _ a b w h => symmetric_addEdge h a b w,
    fun _ _ lat lon h hno => symmetric_addNode h hno lat lon⟩

/-- C4 witness: a fresh-node, fresh-edge construction stays symmetric. -/
theorem claim_C4_witness :
    SymmetricAdj (addEdge (addNode (addNode graphInit 1 0 0) 2 0 0) 1 2 5) := by
  apply claim_C4.2.1
  apply claim_C4.2.2
  · apply claim_C4.2.2
    · exact claim_C4.1
    · intro b w
      simp [graphInit, getNeighbors]
  · intro b w hmem
    rw [getNeighbors_addNode] at hmem
    by_cases hb : b = 1
    · rw [if_pos hb] at hmem
      exact absurd hmem (List.not_mem_nil _)
    · rw [if_neg hb] at hmem
      simp [graphInit, getNeighbors] at hmem

/-- C5: immediately after `add_edge(a, b, w)` on any graph state, `(b, w)`
is in `get_neighbors(a)` and `(a, w)` is in `get_neighbors(b)`; and a node
id never mentioned by any construction operation yields the empty neighbor
list rather than an error. -/
theorem claim_C5 :
    (∀ g a b w, (b, w) ∈ getNeighbors (addEdge g a b w) a ∧
      (a, w) ∈ getNeighbors (addEdge g a b w) b) ∧
    (∀ ops id, (∀ op ∈ ops, id ∉ opMentions op) →
      getNeighbors (applyOps ops) id = []) := by
  constructor
  · intro g a b w
    constructor <;> rw [getNeighbors_addEdge] <;> simp
  · intro ops id hops
    exact getNeighbors_untouched ops graphInit id (by simp [graphInit, getNeighbors]) hops

/-- C5 witness: a concrete edge insertion and a concrete untouched id. -/
theorem claim_C5_witness :
    ((2, 3) ∈ getNeighbors (addEdge graphInit 1 2 3) 1 ∧
      (1, 3) ∈ getNeighbors (addEdge graphInit 1 2 3) 2) ∧
    getNeighbors (applyOps [.node 1 0 0, .edge 1 2 3]) 5 = [] :=
  ⟨claim_C5.1 graphInit 1 2 3,
    claim_C5.2 [.node 1 0 0, .edge 1 2 3] 5 (by decide)⟩

/-- C6: the claim that `greedy_tsp` always terminates fails on the code.
With stops `[1, 2]` on the graph of two isolated nodes, every unvisited
stop is unreachable, `nearest` stays `None`, and the `while unvisited:`
loop never finishes: the model returns `none` for every fuel. -/
theorem claim_C6 : ∀ aFuel lFuel, greedyTsp isoGraph aFuel lFuel [1, 2] = none := by
  intro aF lf
  have h : greedyTsp isoGraph aF lf [1, 2] = greedyLoop isoGraph aF lf [2] 1 [1] 0 := rfl
  rw [h]
  exact greedyLoop_isoGraph lf aF

/-- C7: over any completion schedule that runs each submitted future
exactly once, `simple_parallel` returns exactly one result per request, in
submission order, each equal to the sequential `a_star` result. -/
theorem claim_C7 (g : PyGraph) (aFuel : Nat) (requests : List (Node × Node))
    (sched : List Nat) (hperm : sched.Perm (List.range requests.length)) :
    (simpleParallel g aFuel requests sched).length = requests.length ∧
    simpleParallel g aFuel requests sched =
      requests.map (fun r => aStar g r.1 r.2 aFuel) := by
  refine ⟨?_, simpleParallel_spec g aFuel requests sched hperm⟩
  simp [simpleParallel]

/-- C7 witness: two requests completed in reversed order. -/
theorem claim_C7_witness :
    (simpleParallel lineGraph 9 [(0, 2), (1, 0)] [1, 0]).length = 2 ∧
    simpleParallel lineGraph 9 [(0, 2), (1, 0)] [1, 0] =
      [(0, 2), (1, 0)].map (fun r => aStar lineGraph r.1 r.2 9) :=
  claim_C7 lineGraph 9 [(0, 2), (1, 0)] [1, 0] (by decide)

/-- C8 counterexample: at latitude 0.28 the floor of the transformed
coordinate is -1 (outside the 10x10 range), yet `int()` truncates toward
zero to 0 and the node is inserted into grid bucket (0, 1). -/
theorem claim_C8_cex :
    ¬ (0 ≤ ⌊(((7 : Rat)/25 - 3/10) * 20)⌋) ∧
    7 ∈ (addNode graphInit 7 (7/25) (651/20)).grid 0 1 := by
  constructor
  · norm_num
  · have hx : gridX (7/25) = 0 := by unfold gridX pyInt; norm_num
    have hy : gridY (651/20) = 1 := by unfold gridY pyInt; norm_num
    simp [addNode, hx, hy, graphInit]

/-- C8 (amended): `add_node` always records the id in the adjacency and
position maps; it appends the id to the spatial bucket exactly when the
truncation toward zero (Python `int()`) of the transformed coordinates
lies inside the 10x10 range, and otherwise leaves the grid untouched. -/
theorem claim_C8 (g : PyGraph) (id : Node) (lat lon : Rat) :
    ((addNode g id lat lon).adjacency id = some [] ∧
      (addNode g id lat lon).positions id = some (lat, lon)) ∧
    ((0 ≤ gridX lat ∧ gridX lat < 10 ∧ 0 ≤ gridY lon ∧ gridY lon < 10) →
      (addNode g id lat lon).grid (gridX lat) (gridY lon) =
        g.grid (gridX lat) (gridY lon) ++ [id]) ∧
    (¬ (0 ≤ gridX lat ∧ gridX lat < 10 ∧ 0 ≤ gridY lon ∧ gridY lon < 10) →
      (addNode g id lat lon).grid = g.grid) ∧
    (∀ x y, ¬ (x = gridX lat ∧ y = gridY lon) →
      (addNode g id lat lon).grid x y = g.grid x y) := by
  refine ⟨⟨by simp [addNode], by simp [addNode]⟩, ?_, ?_, ?_⟩
  · intro hin
    simp only [addNode]
    rw [if_pos hin]
    simp
  · intro hout
    simp only [addNode]
    rw [if_neg hout]
  · intro x y hxy
    simp only [addNode]
    split_ifs with hin
    · show (if x = gridX lat ∧ y = gridY lon then g.grid x y ++ [id] else g.grid x y) =
        g.grid x y
      rw [if_neg hxy]
    · rfl

/-- C8 witness: an in-range insertion at latitude 0.35, longitude 32.55. -/
theorem claim_C8_witness :
    ((addNode graphInit 4 (35/100) (651/20)).adjacency 4 = some [] ∧
      (addNode graphInit 4 (35/100) (651/20)).positions 4 = some (35/100, 651/20)) ∧
    (addNode graphInit 4 (35/100) (651/20)).grid (gridX (35/100)) (gridY (651/20)) =
      graphInit.grid (gridX (35/100)) (gridY (651/20)) ++ [4] ∧
    (addNode graphInit 4 (35/100) (651/20)).grid 5 5 = graphInit.grid 5 5 := by
  have h := claim_C8 graphInit 4 (35/100) (651/20)
  have hx : gridX (35/100) = 1 := by unfold gridX pyInt; norm_num
  have hy : gridY (651/20) = 1 := by unfold gridY pyInt; norm_num
  refine ⟨h.1, h.2.1 (by rw [hx, hy]; norm_num), h.2.2.2 5 5 (by rw [hx, hy]; norm_num)⟩

/-- C9 counterexample: an empty stop list and an empty batch are not
rejected with an invalid-request error; both return ordinary results. -/
theorem claim_C9_cex :
    greedyTsp graphInit 5 5 [] = some ([], 0) ∧
    simpleParallel graphInit 5 [] [] = [] :=
  ⟨rfl, rfl⟩

/-- C9 (amended): `greedy_tsp` with fewer than two stops (in particular the
empty list) returns `(stops, 0)` without dispatching any pathfinding, and
`simple_parallel` on an empty request list returns the empty result list;
neither signals an invalid-request error. -/
theorem claim_C9 :
    (∀ g aFuel lFuel (stops : List Node), stops.length < 2 →
      greedyTsp g aFuel lFuel stops = some (stops, 0)) ∧
    (∀ g aFuel (sched : List Nat), simpleParallel g aFuel [] sched = []) := by
  constructor
  · intro g aF lF stops h
    simp [greedyTsp, h]
  · intro g aF sched
    rfl

/-- C9 witness: a one-stop tour and an empty batch with a nonempty
schedule. -/
theorem claim_C9_witness :
    greedyTsp graphInit 1 1 [4] = some ([4], 0) ∧
    simpleParallel graphInit 1 [] [2, 3] = [] :=
  ⟨claim_C9.1 graphInit 1 1 [4] (by decide), claim_C9.2 graphInit 1 [2, 3]⟩

end Kampala
